import Mathlib

/-!
Verification of the Petri-net translator pipeline
(`src/translate/petri_translate.py`, `src/translate/petri/petri.py`).

The development shallowly embeds the translator's data model and the three
pipeline stages (safe-operator expansion, polarity elimination, net
construction / finite-domain encoding) as executable Lean definitions and
proves the specified properties about them.

Modelling conventions:
* Python ground literals (`pddl.conditions.Atom` / `NegatedAtom`) are the
  structure `Literal` below; structural equality matches Python `__eq__`.
* Python `set` objects are modelled as duplicate-free lists; all properties
  proved about them are membership statements, so the (unspecified) Python
  set iteration order is immaterial.
* Fallible Python operations (dictionary lookups that may raise `KeyError`)
  return `Option`.
-/

namespace PetriTranslate

/-- Modelled from the spec: a ground atom — predicate name, parameter list and
a polarity flag (`pddl.conditions.Atom` / `NegatedAtom` are not under `src/`).
Two literals are equal iff same predicate, parameters and polarity. -/
structure Literal where
  negated : Bool
  predicate : String
  args : List String
deriving DecidableEq, Repr

namespace Literal

/-- Modelled from the spec: `negate` flips polarity. -/
def negate (l : Literal) : Literal := { l with negated := !l.negated }

/-- Modelled from the spec: `positive` strips negation. -/
def positive (l : Literal) : Literal := { l with negated := false }

@[simp] theorem negate_negate (l : Literal) : l.negate.negate = l := by
  simp [negate]

@[simp] theorem negated_negate (l : Literal) : l.negate.negated = !l.negated := rfl

@[simp] theorem predicate_negate (l : Literal) : l.negate.predicate = l.predicate := rfl

@[simp] theorem args_negate (l : Literal) : l.negate.args = l.args := rfl

theorem negate_inj {l₁ l₂ : Literal} (h : l₁.negate = l₂.negate) : l₁ = l₂ := by
  have := congrArg negate h
  simpa using this

end Literal

/-- Modelled from the spec / repo test: the string form of a literal,
`str(Atom('a', []))` being `"Atom a()"` and `str(NegatedAtom('a', []))`
being `"NegatedAtom a()"`. -/
def strLit (l : Literal) : String :=
  (if l.negated then "NegatedAtom " else "Atom ") ++
    l.predicate ++ "(" ++ String.intercalate ", " l.args ++ ")"

/-- An entry of the initial-state list of a parsed task: either a literal or
some other object (in the Python task, e.g. a metric `Assign`), which is not
an `Atom` instance. -/
inductive InitEntry where
  | lit (l : Literal)
  | other (tag : String)
deriving DecidableEq, Repr

/-- `isinstance(entry, Atom)` — true exactly for positive literals
(`NegatedAtom` is a different class in the Python model). -/
def InitEntry.isAtom : InitEntry → Bool
  | .lit l => !l.negated
  | .other _ => false

/-- Modelled from the spec: grounded operator (`pddl.actions.PropositionalAction`,
not under `src/`): name, precondition literals, add-effects, del-effects
(each effect a pair of an — always empty — condition and a literal), cost. -/
structure PropositionalAction where
  name : String
  precondition : List Literal
  add_effects : List (List Literal × Literal)
  del_effects : List (List Literal × Literal)
  cost : Nat
deriving DecidableEq, Repr

/-- Modelled from the spec: the `PropositionalAction` constructor receives one
effect-literal list and splits it by polarity: positive literals become
add-effects, negated literals become del-effects stored as their positive
form (§3 tags each effect as add/del; `join_add_del_effects` recovers the
full effect set as add-effects ∪ negated del-effects). -/
def mkAction (name : String) (precondition : List Literal)
    (effects : List (List Literal × Literal)) (cost : Nat) : PropositionalAction where
  name := name
  precondition := precondition
  add_effects := effects.filter (fun ce => !ce.2.negated)
  del_effects := (effects.filter (fun ce => ce.2.negated)).map (fun ce => (ce.1, ce.2.negate))
  cost := cost

/-- `join_add_del_effects` from `petri_translate.py`: the add effects joined
with the negated del effects — the full effect set, each effect expressed as
the literal it makes true. -/
def join_add_del_effects (add_effects del_effects : List (List Literal × Literal)) :
    List Literal :=
  add_effects.map (·.2) ++ del_effects.map (fun dele => dele.2.negate)

/-- The full effect-literal list of an operator. -/
def effLits (op : PropositionalAction) : List Literal :=
  join_add_del_effects op.add_effects op.del_effects

/-- `not_negated_effect` from `petri_translate.py`: true iff the effect
neither negates any precondition literal nor appears verbatim among them.
For grounded tasks every precondition item is a bare literal (`cond.parts`
is empty), so the source's `parts` unfolding reduces to the literal itself. -/
def not_negated_effect (eff : Literal) (preconditions : List Literal) : Bool :=
  preconditions.all (fun part => !(part == eff.negate || part == eff))

/-- `preconditions_atoms` from `petri_translate.py`: the flattened list of
precondition literals (identity on bare-literal conditions). -/
def preconditions_atoms (preconditions : List Literal) : List Literal :=
  preconditions

/-- `itertools.combinations(s, r)`: all length-`r` sublists of `s`, in the
source order. -/
def combinations : List α → Nat → List (List α)
  | _, 0 => [[]]
  | [], _ + 1 => []
  | x :: xs, r + 1 => (combinations xs r).map (x :: ·) ++ combinations xs (r + 1)

/-- `powerset` from `petri_translate.py`: all sublists enumerated by size
(`chain.from_iterable(combinations(s, r) for r in range(len(s) + 1))`). -/
def powerset (s : List α) : List (List α) :=
  (List.range (s.length + 1)).flatMap (combinations s)

/-- Python `set.add` on a set modelled as a duplicate-free list. -/
def sinsert [DecidableEq α] (l : List α) (x : α) : List α :=
  if x ∈ l then l else l ++ [x]

/-- The ambiguous effects of an operator (`not_negated_effects` in the source):
effects that neither negate a precondition literal nor appear verbatim in it. -/
def ambiguousEffects (op : PropositionalAction) : List Literal :=
  (effLits op).filter (fun eff => not_negated_effect eff op.precondition)

/-- The settled effects of an operator (`negated_effects` in the source):
`set(effects) - set(not_negated_effects)`. -/
def settledEffects (op : PropositionalAction) : List Literal :=
  ((effLits op).filter (fun eff => !not_negated_effect eff op.precondition)).dedup

/-- The operator synthesized for the `i`-th subset `eprime` of the ambiguous
effects inside `get_safe_operators`: its effect set is
`negated_effects.union(set(eprime))`, its precondition the original
precondition atoms plus, per ambiguous effect, the effect's negation when it
is in the effect set and the effect itself otherwise, and its name carries
the numeric suffix `i`. -/
def synth_op (op : PropositionalAction) (i : Nat) (eprime : List Literal) :
    PropositionalAction :=
  let e := (settledEffects op ++ eprime).dedup
  let p := (ambiguousEffects op).foldl
    (fun acc nn => if nn ∈ e then sinsert acc nn.negate else sinsert acc nn)
    ((preconditions_atoms op.precondition).dedup)
  mkAction (op.name ++ "_" ++ toString i) p (e.map (fun eff => ([], eff))) op.cost

/-- The expansion of one operator inside `get_safe_operators`
(`petri_translate.py`, the body of the loop over `operators`): the operator
itself when it has no ambiguous effect, else one synthesized operator per
entry of `powerset(not_negated_effects)`, numbered from 1. -/
def expand_operator (op : PropositionalAction) : List PropositionalAction :=
  if (ambiguousEffects op).isEmpty then [op]
  else (powerset (ambiguousEffects op)).enum.map (fun ie => synth_op op (ie.1 + 1) ie.2)

/-- `get_safe_operators` from `petri_translate.py`. -/
def get_safe_operators (operators : List PropositionalAction) : List PropositionalAction :=
  operators.flatMap expand_operator

/-- The complementary literal built in `remove_negative_preconditions`:
`deepcopy(l.negate())` with its predicate prefixed by the reserved `not_`
marker. -/
def mkNot (l : Literal) : Literal :=
  { negated := !l.negated, predicate := "not_" ++ l.predicate, args := l.args }

/-- Substitution of a negated precondition by its complement literal
(`preconds[i] = additional_literals[preconds[i]]`; the stored value is
always `mkNot` of the key). -/
def posify (l : Literal) : Literal :=
  if l.negated then mkNot l else l

/-- The rewrite of one safe operator inside `remove_negative_preconditions`:
negated preconditions are substituted by their complements, and for every
effect literal the complementary opposite literal is emitted alongside it. -/
def rnp_op (op : PropositionalAction) : PropositionalAction :=
  let preconds := op.precondition.map posify
  let effects := join_add_del_effects op.add_effects op.del_effects
  let new_effects := effects.map mkNot
  mkAction op.name preconds ((effects ++ new_effects).map (fun eff => ([], eff))) op.cost

/-- The dictionary keys recorded for one operator inside
`remove_negative_preconditions`: its negated precondition literals followed
by its negated effect literals. -/
def rnp_keys_op (op : PropositionalAction) : List Literal :=
  op.precondition.filter (·.negated) ++
    (join_add_del_effects op.add_effects op.del_effects).filter (·.negated)

/-- `remove_negative_preconditions` from `petri_translate.py`. The Python
function mutates the operator list and returns the `additional_literals`
dictionary; here both are returned. The dictionary always maps a key `l` to
`mkNot l`, so it is represented by its key list (Python dict insertion order:
first insertion fixes the position) paired with that function. -/
def remove_negative_preconditions (safe_operators : List PropositionalAction) :
    List PropositionalAction × List (Literal × Literal) :=
  (safe_operators.map rnp_op,
   ((safe_operators.flatMap rnp_keys_op).foldl sinsert []).map (fun k => (k, mkNot k)))

/-! ### The Petri-net model (`src/translate/petri/petri.py`) -/

/-- `PetriPlace`: a name and a token count. -/
structure PetriPlace where
  name : String
  tokens : Nat
deriving DecidableEq, Repr

/-- `PetriTransition`: name, origin places, destination places, cost. -/
structure PetriTransition where
  name : String
  origins : List PetriPlace
  destinations : List PetriPlace
  cost : Nat
deriving DecidableEq, Repr

/-- `PetriNet`: lists of places and transitions. -/
structure PetriNet where
  places : List PetriPlace
  transitions : List PetriTransition
deriving DecidableEq, Repr

/-! ### Net construction (`petri_mapping` in `petri_translate.py`) -/

/-- The set of positive literals of the initial-state list
(`clean_init`): entries that are not `Atom` instances are dropped. -/
def cleanInit (init : List InitEntry) : List Literal :=
  (init.filterMap (fun e => match e with
    | .lit l => if l.negated then none else some l
    | .other _ => none)).dedup

/-- The place created for an original atom: one token iff the atom is in the
initial state. -/
def atomPlace (clean : List Literal) (atom : Literal) : PetriPlace :=
  { name := strLit atom, tokens := if atom ∈ clean then 1 else 0 }

/-- The place created for a complement atom: one token iff the original's
positive form is not in the initial state. -/
def complementPlace (clean : List Literal) (pr : Literal × Literal) : PetriPlace :=
  { name := strLit pr.2, tokens := if pr.1.positive ∈ clean then 0 else 1 }

/-- The place list of the net built by `petri_mapping`. -/
def petriPlaces (atoms : List Literal) (additional_literals : List (Literal × Literal))
    (clean : List Literal) : List PetriPlace :=
  atoms.map (atomPlace clean) ++ additional_literals.map (complementPlace clean)

/-- The `places` dictionary of `petri_mapping`, mapping each atom to its
place; a repeated key keeps its last binding, as in a Python dict. -/
def placesDict (atoms : List Literal) (additional_literals : List (Literal × Literal))
    (clean : List Literal) (a : Literal) : Option PetriPlace :=
  ((atoms.map (fun at_ => (at_, atomPlace clean at_)) ++
    additional_literals.map (fun pr => (pr.2, complementPlace clean pr))).reverse.find?
      (fun kv => kv.1 == a)).map (·.2)

/-- The destination atoms of the transition built for one safe operator:
the add-effect literals, followed by every precondition literal whose string
form occurs neither among the current destinations nor among the del-effect
strings (the preservation arcs). -/
def transition_destinations (op : PropositionalAction) : List Literal :=
  let destinations := op.add_effects.map (·.2)
  let del_effects := op.del_effects.map (fun dele => strLit dele.2)
  op.precondition.foldl
    (fun dests precond =>
      if strLit precond ∈ dests.map strLit ∨ strLit precond ∈ del_effects then dests
      else dests ++ [precond])
    destinations

/-- The transition built for one safe operator inside `petri_mapping`;
`none` when some referenced atom has no place (Python `KeyError`). -/
def transition_of (lookup : Literal → Option PetriPlace) (op : PropositionalAction) :
    Option PetriTransition := do
  let origins ← op.precondition.mapM lookup
  let destinations ← (transition_destinations op).mapM lookup
  pure { name := op.name, origins := origins, destinations := destinations, cost := op.cost }

/-- `petri_mapping` from `petri_translate.py`. -/
def petri_mapping (atoms : List Literal) (additional_literals : List (Literal × Literal))
    (safe_operators : List PropositionalAction) (init : List InitEntry) :
    Option PetriNet := do
  let clean := cleanInit init
  let places := petriPlaces atoms additional_literals clean
  let transitions ← safe_operators.mapM
    (transition_of (placesDict atoms additional_literals clean))
  pure { places := places, transitions := transitions }

/-! ### Finite-domain encoding (`PetriNet.sas_translate` in `petri.py`) -/

/-- The PDDL task goal: a bare literal or a conjunction. A conjunction with
a non-empty `parts` list contributes its parts as the top-level goal
literals; a bare literal contributes itself. -/
inductive GoalCond where
  | lit (g : Literal)
  | conj (parts : List Literal)
deriving DecidableEq, Repr

/-- The `pddl_goals` list of `sas_translate` (`goal.parts` if non-empty, else
the goal itself). An empty conjunction is modelled as contributing no goal
literal: in the source it contributes the conjunction object itself, whose
string form never matches a place name. -/
def pddl_goals_of : GoalCond → List Literal
  | .lit g => [g]
  | .conj parts => parts

/-- One `pre_post` entry of a SAS operator: variable, pre-value, post-value
and the (always empty) effect-condition list. -/
structure SASPrePost where
  var : Nat
  preVal : Nat
  postVal : Nat
  cond : List (Nat × Nat)
deriving DecidableEq, Repr

/-- A SAS operator: name, prevail conditions, pre/post list and cost. -/
structure SASOperator where
  name : String
  prevail : List (Nat × Nat)
  pre_post : List SASPrePost
  cost : Nat
deriving DecidableEq, Repr

/-- The finite-domain artifacts handed to the external serializer by
`sas_translate`. -/
structure SASTaskData where
  ranges : List Nat
  axiom_layers : List Int
  value_names : List (List String)
  init_values : List Nat
  goals : List (Nat × Nat)
  mutexes : List Unit
  operators : List SASOperator
  axioms : List Unit
  metric : Bool
deriving DecidableEq, Repr

/-- The `place2var` dictionary of `sas_translate`: each place name mapped to
its variable index; a repeated name keeps its last binding, as in a Python
dict. -/
def place2var (places : List PetriPlace) (nm : String) : Option Nat :=
  (places.enum.reverse.find? (fun ip => ip.2.name == nm)).map (·.1)

/-- The goal pairs built by `sas_translate`: per place in order, a pair
`(index, 1)` for every goal literal whose string form equals the place name
and a pair `(index, 0)` for every goal literal whose negation's string form
equals the place name. -/
def petri_goals_of (places : List PetriPlace) (goals : List Literal) : List (Nat × Nat) :=
  places.enum.flatMap (fun ip =>
    goals.flatMap (fun g =>
      (if strLit g == ip.2.name then [(ip.1, 1)] else []) ++
      (if strLit g.negate == ip.2.name then [(ip.1, 0)] else [])))

/-- The SAS operator emitted for one transition by `sas_translate`; `none`
when a referenced place name is missing from `place2var` (Python
`KeyError`). -/
def sas_operator (p2v : String → Option Nat) (tran : PetriTransition) :
    Option SASOperator := do
  let originEntries ← tran.origins.mapM (fun orig =>
    (p2v orig.name).map (fun v =>
      SASPrePost.mk v 1
        (if tran.destinations.any (fun dest => dest.name == orig.name) then 1 else 0) []))
  let entered_vars := originEntries.map (·.var)
  let destVars ← tran.destinations.mapM (fun dest =>
    (p2v dest.name).map (fun v => (v, dest)))
  let destEntries := (destVars.filter (fun vd => vd.1 ∉ entered_vars)).map (fun vd =>
    SASPrePost.mk vd.1
      (if tran.origins.any (fun orig => orig.name == vd.2.name) then 1 else 0) 1 [])
  pure { name := "(" ++ tran.name ++ ")", prevail := [],
         pre_post := originEntries ++ destEntries, cost := tran.cost }

/-- `PetriNet.sas_translate` from `petri.py`, as the pure artifact handed to
the external serializer (writing to the output stream is out of scope). -/
def sas_translate (net : PetriNet) (goal : GoalCond) : Option SASTaskData := do
  let pddl_goals := pddl_goals_of goal
  let operators ← net.transitions.mapM (sas_operator (place2var net.places))
  pure { ranges := net.places.map (fun _ => 2)
         axiom_layers := net.places.map (fun _ => (-1 : Int))
         value_names := net.places.map (fun p => [p.name ++ "(false)", p.name ++ "(true)"])
         init_values := net.places.map (fun p => if p.tokens > 0 then 1 else 0)
         goals := petri_goals_of net.places pddl_goals
         mutexes := []
         operators := operators
         axioms := []
         metric := true }

/-! ### Basic lemmas on the power-set enumeration -/

theorem combinations_zero (l : List α) : combinations l 0 = [[]] := by
  cases l <;> rfl

theorem combinations_eq_nil (l : List α) (r : Nat) (h : l.length < r) :
    combinations l r = [] := by
  induction l generalizing r with
  | nil =>
    cases r with
    | zero => omega
    | succ r => rfl
  | cons x xs ih =>
    cases r with
    | zero => omega
    | succ r =>
      simp only [combinations]
      rw [ih r (by simpa using h), ih (r + 1) (by simp at h; omega)]
      rfl

theorem flatMap_append_perm (L : List β) (f g : β → List α) :
    (L.flatMap (fun b => f b ++ g b)).Perm (L.flatMap f ++ L.flatMap g) := by
  induction L with
  | nil => simp
  | cons b L ih =>
    simp only [List.flatMap_cons]
    refine (ih.append_left (f b ++ g b)).trans ?_
    have e1 : (f b ++ g b) ++ (L.flatMap f ++ L.flatMap g) =
        f b ++ ((g b ++ L.flatMap f) ++ L.flatMap g) := by simp [List.append_assoc]
    have e2 : (f b ++ L.flatMap f) ++ (g b ++ L.flatMap g) =
        f b ++ ((L.flatMap f ++ g b) ++ L.flatMap g) := by simp [List.append_assoc]
    rw [e1, e2]
    exact ((List.perm_append_comm.append_right _).append_left _)

theorem powerset_tail (l : List α) :
    powerset l = [] :: (List.range l.length).flatMap (fun r => combinations l (r + 1)) := by
  unfold powerset
  rw [List.range_succ_eq_map, List.flatMap_cons, combinations_zero, List.flatMap_map]
  rfl

theorem powerset_perm_sublists' (l : List α) : (powerset l).Perm l.sublists' := by
  induction l with
  | nil => rfl
  | cons x xs ih =>
    have hcons : powerset (x :: xs) =
        [] :: (List.range (xs.length + 1)).flatMap
          (fun r => (combinations xs r).map (x :: ·) ++ combinations xs (r + 1)) := by
      rw [powerset_tail]
      rfl
    have hsplit := flatMap_append_perm (List.range (xs.length + 1))
      (fun r => (combinations xs r).map (x :: ·)) (fun r => combinations xs (r + 1))
    have hA : (List.range (xs.length + 1)).flatMap (fun r => (combinations xs r).map (x :: ·)) =
        (powerset xs).map (x :: ·) := by
      rw [powerset, List.map_flatMap]
    have hB : (List.range (xs.length + 1)).flatMap (fun r => combinations xs (r + 1)) =
        (List.range xs.length).flatMap (fun r => combinations xs (r + 1)) := by
      rw [List.range_succ, List.flatMap_append]
      simp [combinations_eq_nil xs (xs.length + 1) (by omega)]
    have hrec : powerset xs = [] :: (List.range xs.length).flatMap
        (fun r => combinations xs (r + 1)) := powerset_tail xs
    rw [hA, hB] at hsplit
    rw [hcons, List.sublists'_cons]
    refine (hsplit.cons ([] : List α)).trans ?_
    refine (List.perm_append_comm.cons ([] : List α)).trans ?_
    have e1 : (([] : List α) ::
        ((List.range xs.length).flatMap (fun r => combinations xs (r + 1)) ++
          (powerset xs).map (x :: ·))) =
        powerset xs ++ (powerset xs).map (x :: ·) := by rw [hrec]; rfl
    rw [e1]
    exact ih.append (ih.map _)

theorem length_powerset (l : List α) : (powerset l).length = 2 ^ l.length :=
  (powerset_perm_sublists' l).length_eq.trans (List.length_sublists' l)

theorem mem_powerset {s l : List α} : s ∈ powerset l ↔ s.Sublist l :=
  ((powerset_perm_sublists' l).mem_iff).trans List.mem_sublists'

theorem nodup_powerset {l : List α} (h : l.Nodup) : (powerset l).Nodup :=
  ((powerset_perm_sublists' l).nodup_iff).2 (List.nodup_sublists'.2 h)

/-- Two sublists of a duplicate-free list with the same elements are equal. -/
theorem sublist_eq_of_mem_iff [DecidableEq α] {l s₁ s₂ : List α} (hl : l.Nodup)
    (h₁ : s₁.Sublist l) (h₂ : s₂.Sublist l) (h : ∀ a, a ∈ s₁ ↔ a ∈ s₂) : s₁ = s₂ := by
  induction l generalizing s₁ s₂ with
  | nil =>
    rw [List.sublist_nil.mp h₁, List.sublist_nil.mp h₂]
  | cons x xs ih =>
    have hx : x ∉ xs := (List.nodup_cons.mp hl).1
    have hxs : xs.Nodup := (List.nodup_cons.mp hl).2
    cases h₁ with
    | cons _ h₁' =>
      cases h₂ with
      | cons _ h₂' => exact ih hxs h₁' h₂' h
      | cons₂ _ h₂' =>
        exact absurd (h₁'.subset ((h x).mpr (List.mem_cons_self _ _))) hx
    | cons₂ _ h₁' =>
      cases h₂ with
      | cons _ h₂' =>
        exact absurd (h₂'.subset ((h x).mp (List.mem_cons_self _ _))) hx
      | cons₂ _ h₂' =>
        congr 1
        refine ih hxs h₁' h₂' (fun a => ⟨fun ha => ?_, fun ha => ?_⟩)
        · have hax : a ≠ x := fun he => hx (he ▸ h₁'.subset ha)
          have := (h a).mp (List.mem_cons_of_mem _ ha)
          exact (List.mem_cons.mp this).resolve_left hax
        · have hax : a ≠ x := fun he => hx (he ▸ h₂'.subset ha)
          have := (h a).mpr (List.mem_cons_of_mem _ ha)
          exact (List.mem_cons.mp this).resolve_left hax

theorem all_eq_singleton {l : List α} {a : α} (hnd : l.Nodup) (hmem : a ∈ l)
    (hall : ∀ x ∈ l, x = a) : l = [a] := by
  cases l with
  | nil => cases hmem
  | cons x xs =>
    have hxa : x = a := hall x (List.mem_cons_self _ _)
    subst hxa
    cases xs with
    | nil => rfl
    | cons y ys =>
      have : y = x := hall y (by simp)
      exact absurd (this ▸ List.mem_cons_self y ys) (List.nodup_cons.mp hnd).1

/-- Each subset of a duplicate-free list is enumerated exactly once by
`powerset`. -/
theorem countP_powerset [DecidableEq α] {l : List α} (hnd : l.Nodup) (t : Finset α)
    (ht : t ⊆ l.toFinset) :
    (powerset l).countP (fun s => decide (s.toFinset = t)) = 1 := by
  set s₀ := l.filter (fun a => decide (a ∈ t)) with hs₀
  have hsub : s₀.Sublist l := List.filter_sublist l
  have hset : s₀.toFinset = t := by
    ext a
    simp only [hs₀, List.mem_toFinset, List.mem_filter, decide_eq_true_eq]
    exact ⟨fun h => h.2, fun h => ⟨by simpa using ht h, h⟩⟩
  rw [List.countP_eq_length_filter]
  have hall : ∀ s ∈ (powerset l).filter (fun s => decide (s.toFinset = t)), s = s₀ := by
    intro s hs
    rw [List.mem_filter] at hs
    refine sublist_eq_of_mem_iff hnd (mem_powerset.mp hs.1) hsub (fun a => ?_)
    have h1 : s.toFinset = t := by simpa using hs.2
    have := congrArg (a ∈ ·) (h1.trans hset.symm)
    simpa [List.mem_toFinset] using Iff.of_eq this
  have hmem : s₀ ∈ (powerset l).filter (fun s => decide (s.toFinset = t)) := by
    rw [List.mem_filter]
    exact ⟨mem_powerset.mpr hsub, by simp [hset]⟩
  rw [all_eq_singleton ((nodup_powerset hnd).filter _) hmem hall]
  rfl

/-! ### The safe-operator expansion: structure lemmas -/

/-- The effect set of an operator, as a finite set of literals. -/
def effFinset (op : PropositionalAction) : Finset Literal := (effLits op).toFinset

theorem isEmpty_false_of_ne_nil {l : List α} (h : l ≠ []) : l.isEmpty = false := by
  cases l with
  | nil => exact absurd rfl h
  | cons x xs => rfl

theorem expand_operator_eq (op : PropositionalAction) (h : ambiguousEffects op ≠ []) :
    expand_operator op =
      (powerset (ambiguousEffects op)).enum.map (fun ie => synth_op op (ie.1 + 1) ie.2) := by
  rw [expand_operator, isEmpty_false_of_ne_nil h]
  rfl

theorem length_expand_operator (op : PropositionalAction) (h : ambiguousEffects op ≠ []) :
    (expand_operator op).length = 2 ^ (ambiguousEffects op).length := by
  rw [expand_operator_eq op h, List.length_map, List.enum_length, length_powerset]

theorem get_expand_operator (op : PropositionalAction) (h : ambiguousEffects op ≠ [])
    (i : Nat) (hi : i < (expand_operator op).length)
    (hp : i < (powerset (ambiguousEffects op)).length) :
    (expand_operator op).get ⟨i, hi⟩ =
      synth_op op (i + 1) ((powerset (ambiguousEffects op)).get ⟨i, hp⟩) := by
  have hi' : i < ((powerset (ambiguousEffects op)).enum.map
      (fun ie => synth_op op (ie.1 + 1) ie.2)).length := by
    rw [← expand_operator_eq op h]; exact hi
  rw [List.get_eq_getElem, List.get_eq_getElem]
  have := expand_operator_eq op h
  simp only [this, List.getElem_map, List.getElem_enum]

theorem effLits_mkAction (n : String) (p : List Literal) (el : List Literal) (c : Nat) :
    effLits (mkAction n p (el.map (fun e => (([] : List Literal), e))) c) =
      el.filter (fun x => !x.negated) ++ el.filter (fun x => x.negated) := by
  simp only [effLits, mkAction, join_add_del_effects, List.filter_map, List.map_map,
    Function.comp_def, Literal.negate_negate, List.map_id']

theorem mem_effLits_mkAction {a : Literal} (n : String) (p : List Literal)
    (el : List Literal) (c : Nat) :
    a ∈ effLits (mkAction n p (el.map (fun e => (([] : List Literal), e))) c) ↔ a ∈ el := by
  rw [effLits_mkAction, List.mem_append, List.mem_filter, List.mem_filter]
  cases h : a.negated <;> simp [h]

theorem effFinset_synth_op (op : PropositionalAction) (i : Nat) (ep : List Literal) :
    effFinset (synth_op op i ep) = (settledEffects op).toFinset ∪ ep.toFinset := by
  ext a
  rw [effFinset, List.mem_toFinset, synth_op]
  simp only [mem_effLits_mkAction, List.mem_dedup, List.mem_append,
    Finset.mem_union, List.mem_toFinset]

theorem name_synth_op (op : PropositionalAction) (i : Nat) (ep : List Literal) :
    (synth_op op i ep).name = op.name ++ "_" ++ toString i := rfl

theorem cost_synth_op (op : PropositionalAction) (i : Nat) (ep : List Literal) :
    (synth_op op i ep).cost = op.cost := rfl

theorem settled_ambiguous_disjoint (op : PropositionalAction) (x : Literal)
    (hs : x ∈ settledEffects op) (ha : x ∈ ambiguousEffects op) : False := by
  rw [settledEffects, List.mem_dedup, List.mem_filter] at hs
  rw [ambiguousEffects, List.mem_filter] at ha
  rw [ha.2] at hs
  exact absurd hs.2 (by simp)

theorem map_effFinset_expand (op : PropositionalAction) (h : ambiguousEffects op ≠ []) :
    (expand_operator op).map effFinset =
      (powerset (ambiguousEffects op)).map
        (fun s => (settledEffects op).toFinset ∪ s.toFinset) := by
  rw [expand_operator_eq op h, List.map_map]
  have : (effFinset ∘ fun ie : Nat × List Literal => synth_op op (ie.1 + 1) ie.2) =
      (fun s => (settledEffects op).toFinset ∪ s.toFinset) ∘ Prod.snd := by
    funext ie
    exact effFinset_synth_op op (ie.1 + 1) ie.2
  rw [this, ← List.map_map, List.enum_map_snd]

/-! ### Claim C1 -/

/-- C1: for every input operator with `k ≥ 1` ambiguous effects (effects
neither settled against nor verbatim in the precondition),
`get_safe_operators` produces exactly `2^k` operators for it, one per subset
of the ambiguous-effect set, each with effect set `E_settled ∪ subset`, each
named with a stable numeric suffix `1..2^k` appended to the original name,
and each with the original operator's cost unchanged. -/
theorem claim_C1 (op : PropositionalAction)
    (hk : ambiguousEffects op ≠ []) (hnd : (ambiguousEffects op).Nodup) :
    get_safe_operators [op] = expand_operator op ∧
    (expand_operator op).length = 2 ^ (ambiguousEffects op).length ∧
    (∀ i (hi : i < (expand_operator op).length),
      ((expand_operator op).get ⟨i, hi⟩).name = op.name ++ "_" ++ toString (i + 1) ∧
      ((expand_operator op).get ⟨i, hi⟩).cost = op.cost) ∧
    (∀ t : Finset Literal, t ⊆ (ambiguousEffects op).toFinset →
      (expand_operator op).countP
        (fun o => decide (effFinset o = (settledEffects op).toFinset ∪ t)) = 1) := by
  refine ⟨by simp [get_safe_operators], length_expand_operator op hk, ?_, ?_⟩
  · intro i hi
    have hp : i < (powerset (ambiguousEffects op)).length := by
      rw [length_powerset]
      rw [length_expand_operator op hk] at hi
      exact hi
    rw [get_expand_operator op hk i hi hp]
    exact ⟨rfl, rfl⟩
  · intro t ht
    have h1 : (expand_operator op).countP
        (fun o => decide (effFinset o = (settledEffects op).toFinset ∪ t)) =
        ((expand_operator op).map effFinset).countP
          (fun F => decide (F = (settledEffects op).toFinset ∪ t)) :=
      (List.countP_map (fun F => decide (F = (settledEffects op).toFinset ∪ t))
        effFinset (expand_operator op)).symm
    rw [h1, map_effFinset_expand op hk, List.countP_map]
    have h2 : ∀ s ∈ powerset (ambiguousEffects op),
        (((fun F => decide (F = (settledEffects op).toFinset ∪ t)) ∘
            (fun s : List Literal => (settledEffects op).toFinset ∪ s.toFinset)) s = true ↔
          (fun s : List Literal => decide (s.toFinset = t)) s = true) := by
      intro s hs
      simp only [Function.comp_apply, decide_eq_true_eq]
      constructor
      · intro he
        have hsub : s.toFinset ⊆ (ambiguousEffects op).toFinset := by
          intro x hx
          rw [List.mem_toFinset] at hx ⊢
          exact (mem_powerset.mp hs).subset hx
        ext x
        constructor
        · intro hx
          have hx2 : x ∈ (settledEffects op).toFinset ∪ t := by
            rw [← he]; exact Finset.mem_union_right _ hx
          rcases Finset.mem_union.mp hx2 with h | h
          · exact absurd (List.mem_toFinset.mp (hsub hx))
              (fun hc => settled_ambiguous_disjoint op x (List.mem_toFinset.mp h) hc)
          · exact h
        · intro hx
          have hx2 : x ∈ (settledEffects op).toFinset ∪ s.toFinset := by
            rw [he]; exact Finset.mem_union_right _ hx
          rcases Finset.mem_union.mp hx2 with h | h
          · exact absurd (List.mem_toFinset.mp (ht hx))
              (fun hc => settled_ambiguous_disjoint op x (List.mem_toFinset.mp h) hc)
          · exact h
      · intro he
        rw [he]
    rw [List.countP_congr h2]
    exact countP_powerset hnd t ht

/-! ### Claims C2 and C3 -/

theorem mem_sinsert [DecidableEq α] {l : List α} {x y : α} :
    y ∈ sinsert l x ↔ y ∈ l ∨ y = x := by
  unfold sinsert
  split
  · next h =>
    constructor
    · exact Or.inl
    · rintro (hy | rfl)
      · exact hy
      · exact h
  · simp

theorem mem_foldl_sinsert_branch (amb e acc : List Literal) (x : Literal) :
    x ∈ amb.foldl
        (fun acc nn => if nn ∈ e then sinsert acc nn.negate else sinsert acc nn) acc ↔
      x ∈ acc ∨ ∃ nn ∈ amb, x = if nn ∈ e then nn.negate else nn := by
  induction amb generalizing acc with
  | nil => simp
  | cons nn amb ih =>
    rw [List.foldl_cons]
    have hstep : (if nn ∈ e then sinsert acc nn.negate else sinsert acc nn) =
        sinsert acc (if nn ∈ e then nn.negate else nn) := by
      split <;> rfl
    rw [hstep, ih, mem_sinsert]
    simp only [List.mem_cons]
    constructor
    · rintro ((h | h) | ⟨a, hmem, h⟩)
      · exact Or.inl h
      · exact Or.inr ⟨nn, Or.inl rfl, h⟩
      · exact Or.inr ⟨a, Or.inr hmem, h⟩
    · rintro (h | ⟨a, (rfl | hmem), h⟩)
      · exact Or.inl (Or.inl h)
      · exact Or.inl (Or.inr h)
      · exact Or.inr ⟨a, hmem, h⟩

theorem mem_precondition_synth_op (op : PropositionalAction) (i : Nat)
    (ep : List Literal) (x : Literal) :
    x ∈ (synth_op op i ep).precondition ↔
      x ∈ (preconditions_atoms op.precondition).dedup ∨
        ∃ nn ∈ ambiguousEffects op,
          x = if nn ∈ (settledEffects op ++ ep).dedup then nn.negate else nn := by
  show x ∈ (ambiguousEffects op).foldl _ ((preconditions_atoms op.precondition).dedup) ↔ _
  exact mem_foldl_sinsert_branch _ _ _ x

theorem mem_dedup_settled_append {op : PropositionalAction} {ep : List Literal}
    {a : Literal} (ha : a ∈ ambiguousEffects op) :
    a ∈ (settledEffects op ++ ep).dedup ↔ a ∈ ep := by
  rw [List.mem_dedup, List.mem_append]
  constructor
  · rintro (h | h)
    · exact absurd ha (fun hc => settled_ambiguous_disjoint op a h hc)
    · exact h
  · exact Or.inr

/-- The example operator of the repository's own regression test
(Hickmott et al.): precondition `{a, ¬b}`, effects `{¬a, d}`, cost 0. -/
def hickmott_op : PropositionalAction :=
  mkAction "x" [⟨false, "a", []⟩, ⟨true, "b", []⟩]
    [([], ⟨true, "a", []⟩), ([], ⟨false, "d", []⟩)] 0

/-- An operator with empty precondition and the single add-effect `d`
(ambiguous); the second expanded operator carries the effect subset `{d}`. -/
def c2_cex_op : PropositionalAction :=
  mkAction "x" [] [([], ⟨false, "d", []⟩)] 0

/-- C2, counterexample: the operator synthesized for the subset that includes
the ambiguous effect `d` has precondition `{¬d}`; the claim demands the
effect's atom `d` itself in that precondition, which is absent. -/
theorem claim_C2_counterexample :
    (expand_operator c2_cex_op).length = 2 ∧
    Literal.mk false "d" [] ∈ ambiguousEffects c2_cex_op ∧
    ((expand_operator c2_cex_op).get ⟨1, by decide⟩).add_effects.map (fun ce => ce.2) =
      [Literal.mk false "d" []] ∧
    Literal.mk false "d" [] ∉ ((expand_operator c2_cex_op).get ⟨1, by decide⟩).precondition ∧
    ((expand_operator c2_cex_op).get ⟨1, by decide⟩).precondition =
      [Literal.mk true "d" []] := by
  decide

/-- C2, amended: for every operator expanded by `get_safe_operators` and for
every subset of its ambiguous effects, the synthesized operator's
precondition equals the original precondition's atom set plus, for each
ambiguous effect, that effect's **negation** when the effect is included in
the subset, and that effect's atom itself when it is excluded. -/
theorem claim_C2_amended (op : PropositionalAction) (i : Nat)
    (hi : i < (expand_operator op).length)
    (hp : i < (powerset (ambiguousEffects op)).length)
    (hk : ambiguousEffects op ≠ []) :
    ∀ x, x ∈ ((expand_operator op).get ⟨i, hi⟩).precondition ↔
      (x ∈ preconditions_atoms op.precondition ∨
        ∃ a ∈ ambiguousEffects op,
          (a ∈ (powerset (ambiguousEffects op)).get ⟨i, hp⟩ ∧ x = a.negate) ∨
          (a ∉ (powerset (ambiguousEffects op)).get ⟨i, hp⟩ ∧ x = a)) := by
  intro x
  rw [get_expand_operator op hk i hi hp, mem_precondition_synth_op, List.mem_dedup]
  refine or_congr Iff.rfl (exists_congr fun a => and_congr_right fun ha => ?_)
  by_cases hc : a ∈ (powerset (ambiguousEffects op)).get ⟨i, hp⟩
  · rw [if_pos ((mem_dedup_settled_append ha).mpr hc)]
    rw [List.get_eq_getElem] at hc
    simp [hc]
  · rw [if_neg (fun hmem => hc ((mem_dedup_settled_append ha).mp hmem))]
    rw [List.get_eq_getElem] at hc
    simp [hc]

theorem claim_C2_amended_witness :
    Literal.mk true "d" [] ∈ ((expand_operator hickmott_op).get ⟨1, by decide⟩).precondition ↔
      (Literal.mk true "d" [] ∈ preconditions_atoms hickmott_op.precondition ∨
        ∃ a ∈ ambiguousEffects hickmott_op,
          (a ∈ (powerset (ambiguousEffects hickmott_op)).get ⟨1, by decide⟩ ∧
            Literal.mk true "d" [] = a.negate) ∨
          (a ∉ (powerset (ambiguousEffects hickmott_op)).get ⟨1, by decide⟩ ∧
            Literal.mk true "d" [] = a)) :=
  claim_C2_amended hickmott_op 1 (by decide) (by decide) (by decide) (Literal.mk true "d" [])

/-- An operator whose single effect `a` also appears verbatim in its
precondition. -/
def c3_cex_op : PropositionalAction :=
  mkAction "x" [⟨false, "a", []⟩] [([], ⟨false, "a", []⟩)] 0

/-- C3, counterexample: an effect literal that appears verbatim in the
precondition is placed in the settled set (not dropped), and it does appear
in the effect set of the operator produced for that input operator. -/
theorem claim_C3_counterexample :
    Literal.mk false "a" [] ∈ effLits c3_cex_op ∧
    Literal.mk false "a" [] ∈ preconditions_atoms c3_cex_op.precondition ∧
    Literal.mk false "a" [] ∈ settledEffects c3_cex_op ∧
    expand_operator c3_cex_op = [c3_cex_op] ∧
    ∀ o ∈ expand_operator c3_cex_op, Literal.mk false "a" [] ∈ effLits o := by
  decide

/-- C3, amended: an effect literal that also appears verbatim (same atom,
same polarity) among the operator's precondition literals is excluded from
the ambiguous set (no case split on it), but it is kept in the settled set,
and therefore appears in the effect set of every operator produced for that
input operator. -/
theorem claim_C3_amended (op : PropositionalAction) (eff : Literal)
    (h1 : eff ∈ effLits op) (h2 : eff ∈ preconditions_atoms op.precondition) :
    eff ∉ ambiguousEffects op ∧ eff ∈ settledEffects op ∧
      ∀ o ∈ expand_operator op, eff ∈ effLits o := by
  have hnn : not_negated_effect eff op.precondition = false := by
    rw [not_negated_effect, List.all_eq_false]
    exact ⟨eff, h2, by simp⟩
  have hsettled : eff ∈ settledEffects op := by
    rw [settledEffects, List.mem_dedup, List.mem_filter]
    exact ⟨h1, by rw [hnn]; rfl⟩
  refine ⟨?_, hsettled, ?_⟩
  · intro hmem
    rw [ambiguousEffects, List.mem_filter, hnn] at hmem
    exact absurd hmem.2 (by simp)
  · intro o ho
    by_cases hk : ambiguousEffects op = []
    · have hpass : expand_operator op = [op] := by
        rw [expand_operator, hk]
        rfl
      rw [hpass, List.mem_singleton] at ho
      rw [ho]
      exact h1
    · rw [expand_operator_eq op hk] at ho
      rcases List.mem_map.mp ho with ⟨ie, _, rfl⟩
      show eff ∈ effLits (synth_op op (ie.1 + 1) ie.2)
      rw [synth_op]
      rw [mem_effLits_mkAction, List.mem_dedup, List.mem_append]
      exact Or.inl hsettled

theorem claim_C3_amended_witness :
    (Literal.mk false "a" [] ∈ effLits c3_cex_op ∧
      Literal.mk false "a" [] ∈ preconditions_atoms c3_cex_op.precondition) ∧
    (Literal.mk false "a" [] ∉ ambiguousEffects c3_cex_op ∧
      Literal.mk false "a" [] ∈ settledEffects c3_cex_op ∧
      ∀ o ∈ expand_operator c3_cex_op, Literal.mk false "a" [] ∈ effLits o) :=
  ⟨⟨by decide, by decide⟩,
   claim_C3_amended c3_cex_op (Literal.mk false "a" []) (by decide) (by decide)⟩

theorem claim_C1_witness :
    (ambiguousEffects hickmott_op ≠ [] ∧ (ambiguousEffects hickmott_op).Nodup) ∧
    (expand_operator hickmott_op).length = 2 ^ (ambiguousEffects hickmott_op).length :=
  ⟨⟨by decide, by decide⟩, (claim_C1 hickmott_op (by decide) (by decide)).2.1⟩

/-! ### Claim C4 -/

/-- C4: after `remove_negative_preconditions` returns, for every operator in
the list, no atom occurring in its precondition and no atom occurring in its
effect set (add-effects or del-effects) carries negative polarity. -/
theorem claim_C4 (safe_operators : List PropositionalAction) :
    ∀ op ∈ (remove_negative_preconditions safe_operators).1,
      (∀ p ∈ op.precondition, p.negated = false) ∧
      (∀ ce ∈ op.add_effects, ce.2.negated = false) ∧
      (∀ ce ∈ op.del_effects, ce.2.negated = false) := by
  intro op hop
  rw [remove_negative_preconditions] at hop
  rcases List.mem_map.mp hop with ⟨sop, _, rfl⟩
  refine ⟨?_, ?_, ?_⟩
  · intro p hp
    have hp' : p ∈ sop.precondition.map posify := hp
    rcases List.mem_map.mp hp' with ⟨q, _, rfl⟩
    rw [posify]
    split
    · next hq => simp [mkNot, hq]
    · next hq => simpa using hq
  · intro ce hce
    have hce' : ce ∈ List.filter (fun ce => !ce.2.negated) _ := hce
    have := (List.mem_filter.mp hce').2
    simpa using this
  · intro ce hce
    have hce' : ce ∈ (List.filter (fun ce => ce.2.negated) _).map
        (fun ce : List Literal × Literal => (ce.1, ce.2.negate)) := hce
    rcases List.mem_map.mp hce' with ⟨cf, hcf, rfl⟩
    have := (List.mem_filter.mp hcf).2
    simp only [Literal.negated_negate]
    simp [this]

theorem claim_C4_witness :
    ((remove_negative_preconditions (get_safe_operators [hickmott_op])).1.get
        ⟨0, by decide⟩ ∈ (remove_negative_preconditions (get_safe_operators [hickmott_op])).1) ∧
    ((∀ p ∈ ((remove_negative_preconditions (get_safe_operators [hickmott_op])).1.get
        ⟨0, by decide⟩).precondition, p.negated = false) ∧
     (∀ ce ∈ ((remove_negative_preconditions (get_safe_operators [hickmott_op])).1.get
        ⟨0, by decide⟩).add_effects, ce.2.negated = false) ∧
     (∀ ce ∈ ((remove_negative_preconditions (get_safe_operators [hickmott_op])).1.get
        ⟨0, by decide⟩).del_effects, ce.2.negated = false)) :=
  ⟨by decide, claim_C4 (get_safe_operators [hickmott_op]) _ (by decide)⟩

/-! ### Claim C10 -/

/-- C10: `petri_mapping` silently ignores every entry of the initial-state
list that is not an `Atom` instance: two initial-state lists with the same
`Atom` entries yield identical nets (in particular identical markings). -/
theorem claim_C10 (atoms : List Literal) (additional_literals : List (Literal × Literal))
    (safe_operators : List PropositionalAction) (init₁ init₂ : List InitEntry)
    (h : ∀ l : Literal, l ∈ cleanInit init₁ ↔ l ∈ cleanInit init₂) :
    petri_mapping atoms additional_literals safe_operators init₁ =
      petri_mapping atoms additional_literals safe_operators init₂ := by
  have hA : atomPlace (cleanInit init₁) = atomPlace (cleanInit init₂) :=
    funext fun a => congrArg (PetriPlace.mk (strLit a)) (if_congr (h a) rfl rfl)
  have hC : complementPlace (cleanInit init₁) = complementPlace (cleanInit init₂) :=
    funext fun pr => congrArg (PetriPlace.mk (strLit pr.2)) (if_congr (h pr.1.positive) rfl rfl)
  have hD : placesDict atoms additional_literals (cleanInit init₁) =
      placesDict atoms additional_literals (cleanInit init₂) := by
    funext a
    rw [placesDict, placesDict, hA, hC]
  simp only [petri_mapping, petriPlaces, hA, hC, hD]

/-- A non-`Atom` initial-state entry (e.g. the metric `Assign` object) next
to the atom `a`. -/
def c10_init_noisy : List InitEntry := [.lit ⟨false, "a", []⟩, .other "assign", .lit ⟨true, "b", []⟩]

/-- The same `Atom` entries without the non-`Atom` (and non-positive) noise. -/
def c10_init_plain : List InitEntry := [.lit ⟨false, "a", []⟩]

theorem claim_C10_witness :
    petri_mapping [⟨false, "a", []⟩, ⟨false, "b", []⟩] [] [] c10_init_noisy =
      petri_mapping [⟨false, "a", []⟩, ⟨false, "b", []⟩] [] [] c10_init_plain :=
  claim_C10 [⟨false, "a", []⟩, ⟨false, "b", []⟩] [] [] c10_init_noisy c10_init_plain
    (fun _ => Iff.rfl)

/-! ### Inversion of the net construction -/

theorem mapM_option_forall₂ {f : α → Option β} :
    ∀ {l : List α} {r : List β}, l.mapM f = some r →
      List.Forall₂ (fun a b => f a = some b) l r := by
  intro l
  induction l with
  | nil =>
    intro r h
    simp only [List.mapM_nil, Option.pure_def, Option.some.injEq] at h
    rw [← h]
    exact List.Forall₂.nil
  | cons a l ih =>
    intro r h
    rw [List.mapM_cons] at h
    simp only [Option.bind_eq_bind, Option.bind_eq_some, Option.pure_def,
      Option.some.injEq] at h
    rcases h with ⟨b, hb, bs, hbs, rfl⟩
    exact List.Forall₂.cons hb (ih hbs)

theorem forall₂_mem_right {R : α → β → Prop} :
    ∀ {l : List α} {r : List β}, List.Forall₂ R l r → ∀ b ∈ r, ∃ a ∈ l, R a b := by
  intro l r h
  induction h with
  | nil => intro b hb; cases hb
  | cons hab _ ih =>
    intro b hb
    rcases List.mem_cons.mp hb with rfl | hb
    · exact ⟨_, List.mem_cons_self _ _, hab⟩
    · rcases ih b hb with ⟨a, ha, hr⟩
      exact ⟨a, List.mem_cons_of_mem _ ha, hr⟩

theorem petri_mapping_some {atoms : List Literal} {al : List (Literal × Literal)}
    {ops : List PropositionalAction} {init : List InitEntry} {net : PetriNet}
    (h : petri_mapping atoms al ops init = some net) :
    net.places = petriPlaces atoms al (cleanInit init) ∧
    ops.mapM (transition_of (placesDict atoms al (cleanInit init))) =
      some net.transitions := by
  simp only [petri_mapping, Option.bind_eq_bind, Option.bind_eq_some, Option.pure_def,
    Option.some.injEq] at h
  rcases h with ⟨ts, hts, hnet⟩
  rw [← hnet]
  exact ⟨rfl, hts⟩

/-! ### Claim C5 -/

/-- C5: `petri_mapping` creates one place per original atom, with exactly one
token iff that atom is in the initial state, and one place per complement
atom in the mapping, with exactly one token iff the corresponding original
atom's positive form is not in the initial state; all other places carry
zero tokens. -/
theorem claim_C5 (atoms : List Literal) (additional_literals : List (Literal × Literal))
    (safe_operators : List PropositionalAction) (init : List InitEntry) (net : PetriNet)
    (hnet : petri_mapping atoms additional_literals safe_operators init = some net) :
    net.places =
      atoms.map (fun a =>
        PetriPlace.mk (strLit a) (if a ∈ cleanInit init then 1 else 0)) ++
      additional_literals.map (fun pr =>
        PetriPlace.mk (strLit pr.2) (if pr.1.positive ∈ cleanInit init then 0 else 1)) :=
  (petri_mapping_some hnet).1

/-- The original atoms of the regression example. -/
def hick_atoms : List Literal := [⟨false, "a", []⟩, ⟨false, "b", []⟩, ⟨false, "d", []⟩]

/-- The initial state of the regression example: only `a` holds. -/
def hick_init : List InitEntry := [.lit ⟨false, "a", []⟩]

/-- The polarity-elimination output for the regression example. -/
def hick_rnp : List PropositionalAction × List (Literal × Literal) :=
  remove_negative_preconditions (get_safe_operators [hickmott_op])

/-- The net built for the regression example. -/
def hick_net : PetriNet :=
  (petri_mapping hick_atoms hick_rnp.2 hick_rnp.1 hick_init).getD ⟨[], []⟩

theorem claim_C5_witness :
    hick_net.places =
      hick_atoms.map (fun a =>
        PetriPlace.mk (strLit a) (if a ∈ cleanInit hick_init then 1 else 0)) ++
      hick_rnp.2.map (fun pr =>
        PetriPlace.mk (strLit pr.2) (if pr.1.positive ∈ cleanInit hick_init then 0 else 1)) :=
  claim_C5 hick_atoms hick_rnp.2 hick_rnp.1 hick_init hick_net (by decide)

/-! ### Claim C7 -/

theorem foldl_dests_eq (del_strs : List String) :
    ∀ (pre acc : List Literal), (pre.map strLit).Nodup →
    pre.foldl (fun dests precond =>
        if strLit precond ∈ dests.map strLit ∨ strLit precond ∈ del_strs then dests
        else dests ++ [precond]) acc =
      acc ++ pre.filter
        (fun pc => decide (strLit pc ∉ acc.map strLit ∧ strLit pc ∉ del_strs)) := by
  intro pre
  induction pre with
  | nil =>
    intro acc _
    simp
  | cons pc pre ih =>
    intro acc hnd
    rw [List.map_cons, List.nodup_cons] at hnd
    obtain ⟨hhead, htail⟩ := hnd
    rw [List.foldl_cons]
    by_cases hc : strLit pc ∈ acc.map strLit ∨ strLit pc ∈ del_strs
    · rw [if_pos hc, ih acc htail]
      have hpred : (decide (strLit pc ∉ acc.map strLit ∧ strLit pc ∉ del_strs)) = false := by
        simp only [decide_eq_false_iff_not, not_and]
        intro h1 h2
        rcases hc with hc | hc
        · exact h1 hc
        · exact h2 hc
      rw [List.filter_cons_of_neg (by rw [hpred]; exact Bool.false_ne_true)]
    · rw [if_neg hc, ih (acc ++ [pc]) htail]
      have hmem : ∀ q ∈ pre,
          (decide (strLit q ∉ (acc ++ [pc]).map strLit ∧ strLit q ∉ del_strs)) =
          (decide (strLit q ∉ acc.map strLit ∧ strLit q ∉ del_strs)) := by
        intro q hq
        have hne : strLit q ≠ strLit pc := fun he =>
          hhead (he ▸ List.mem_map_of_mem strLit hq)
        rw [decide_eq_decide, List.map_append]
        simp [hne]
      rw [List.filter_congr hmem]
      have hpred : (decide (strLit pc ∉ acc.map strLit ∧ strLit pc ∉ del_strs)) = true := by
        simp only [decide_eq_true_eq]
        push_neg at hc
        exact hc
      rw [@List.filter_cons_of_pos Literal
        (fun q => decide (strLit q ∉ List.map strLit acc ∧ strLit q ∉ del_strs)) pc pre hpred,
        List.append_assoc]
      rfl

set_option maxHeartbeats 2000000 in
/-- C7: for every safe operator, the transition's destination list built by
`petri_mapping` consists of the add-effect atoms followed by exactly those
precondition literals whose string form occurs neither among the add-effect
destinations nor among the del-effect strings; preconditions that are
produced or deleted are not appended. -/
theorem claim_C7 (op : PropositionalAction)
    (hnd : (op.precondition.map strLit).Nodup) :
    transition_destinations op =
      op.add_effects.map (fun ce => ce.2) ++
        op.precondition.filter (fun pc =>
          decide (strLit pc ∉ (op.add_effects.map (fun ce => ce.2)).map strLit ∧
            strLit pc ∉ op.del_effects.map (fun dele => strLit dele.2))) := by
  simp only [transition_destinations]
  exact foldl_dests_eq (op.del_effects.map (fun dele => strLit dele.2)) op.precondition
    (op.add_effects.map (fun ce => ce.2)) hnd

theorem claim_C7_witness :
    ((hick_rnp.1.get ⟨0, by decide⟩).precondition.map strLit).Nodup ∧
    transition_destinations (hick_rnp.1.get ⟨0, by decide⟩) =
      ((hick_rnp.1.get ⟨0, by decide⟩).add_effects.map (fun ce => ce.2) ++
        (hick_rnp.1.get ⟨0, by decide⟩).precondition.filter (fun pc =>
          decide (strLit pc ∉
              (((hick_rnp.1.get ⟨0, by decide⟩).add_effects.map (fun ce => ce.2)).map strLit) ∧
            strLit pc ∉ (hick_rnp.1.get ⟨0, by decide⟩).del_effects.map
              (fun dele => strLit dele.2)))) :=
  ⟨by decide, claim_C7 (hick_rnp.1.get ⟨0, by decide⟩) (by decide)⟩

/-! ### Claim C8 -/

theorem forall₂_eq_map {f : α → Option β} {g : α → β} :
    ∀ {l : List α} {r : List β}, List.Forall₂ (fun a b => f a = some b) l r →
      (∀ a ∈ l, ∀ b, f a = some b → b = g a) → r = l.map g := by
  intro l r h
  induction h with
  | nil => intro _; rfl
  | cons hab htl ih =>
    intro hg
    rw [List.map_cons, ih (fun a ha b hb => hg a (List.mem_cons_of_mem _ ha) b hb)]
    rw [hg _ (List.mem_cons_self _ _) _ hab]

theorem sas_operator_some {p2v : String → Option Nat} {tran : PetriTransition}
    {sop : SASOperator} (h : sas_operator p2v tran = some sop) :
    sop =
      SASOperator.mk ("(" ++ tran.name ++ ")") []
        (tran.origins.map (fun orig =>
          SASPrePost.mk ((p2v orig.name).getD 0) 1
            (if tran.destinations.any (fun dest => dest.name == orig.name) then 1 else 0) []) ++
         (tran.destinations.filter (fun dest =>
             decide ((p2v dest.name).getD 0 ∉
               tran.origins.map (fun orig => (p2v orig.name).getD 0)))).map
           (fun dest => SASPrePost.mk ((p2v dest.name).getD 0) 0 1 []))
        tran.cost := by
  simp only [sas_operator, Option.bind_eq_bind, Option.bind_eq_some, Option.pure_def,
    Option.some.injEq] at h
  rcases h with ⟨oe, hoe, dv, hdv, hsop⟩
  have hoe' : oe = tran.origins.map (fun orig =>
      SASPrePost.mk ((p2v orig.name).getD 0) 1
        (if tran.destinations.any (fun dest => dest.name == orig.name) then 1 else 0) []) := by
    refine forall₂_eq_map (mapM_option_forall₂ hoe) ?_
    intro orig _ b hb
    rcases Option.map_eq_some'.mp hb with ⟨v, hv, rfl⟩
    rw [hv]
    rfl
  have hdv' : dv = tran.destinations.map
      (fun dest => (((p2v dest.name).getD 0), dest)) := by
    refine forall₂_eq_map (mapM_option_forall₂ hdv) ?_
    intro dest _ b hb
    rcases Option.map_eq_some'.mp hb with ⟨v, hv, rfl⟩
    rw [hv]
    rfl
  subst hoe' hdv'
  rw [← hsop]
  simp only [List.filter_map, List.map_map, Function.comp_def]
  congr 1
  congr 1
  apply List.map_congr_left
  intro dest hdest
  rw [List.mem_filter] at hdest
  have hnotin := of_decide_eq_true hdest.2
  have hany : (tran.origins.any fun orig => orig.name == dest.name) = false := by
    rw [List.any_eq_false]
    intro orig horig heq
    apply hnotin
    have hvv : (p2v orig.name).getD 0 = (p2v dest.name).getD 0 := by
      rw [eq_of_beq heq]
    rw [← hvv]
    exact List.mem_map_of_mem _ horig
  simp [hany]

/-- C8: in `sas_translate`, every emitted operator's pre/post list contains,
for every origin place, the pair (pre 1, post 1 if a destination with the
same place name exists else 0) and, for every destination place whose
variable is not already covered by an origin, the pair (pre 0, post 1); the
prevail list and every per-effect condition list are empty, and the
operator's cost equals the transition's cost. -/
theorem claim_C8 (net : PetriNet) (goal : GoalCond) (task : SASTaskData)
    (hsome : sas_translate net goal = some task) :
    task.operators = net.transitions.map (fun tran =>
      SASOperator.mk ("(" ++ tran.name ++ ")") []
        (tran.origins.map (fun orig =>
          SASPrePost.mk ((place2var net.places orig.name).getD 0) 1
            (if tran.destinations.any (fun dest => dest.name == orig.name) then 1 else 0) []) ++
         (tran.destinations.filter (fun dest =>
             decide ((place2var net.places dest.name).getD 0 ∉
               tran.origins.map (fun orig => (place2var net.places orig.name).getD 0)))).map
           (fun dest => SASPrePost.mk ((place2var net.places dest.name).getD 0) 0 1 []))
        tran.cost) := by
  simp only [sas_translate, Option.bind_eq_bind, Option.bind_eq_some, Option.pure_def,
    Option.some.injEq] at hsome
  rcases hsome with ⟨ops, hops, htask⟩
  have : task.operators = ops := by rw [← htask]
  rw [this]
  exact forall₂_eq_map (mapM_option_forall₂ hops)
    (fun tran _ sop hsop => sas_operator_some hsop)

/-- The encoding emitted for the regression example with goal `d`. -/
def hick_sas : SASTaskData :=
  (sas_translate hick_net (GoalCond.lit ⟨false, "d", []⟩)).getD
    ⟨[], [], [], [], [], [], [], [], true⟩

theorem claim_C8_witness :
    hick_sas.operators = hick_net.transitions.map (fun tran =>
      SASOperator.mk ("(" ++ tran.name ++ ")") []
        (tran.origins.map (fun orig =>
          SASPrePost.mk ((place2var hick_net.places orig.name).getD 0) 1
            (if tran.destinations.any (fun dest => dest.name == orig.name) then 1 else 0) []) ++
         (tran.destinations.filter (fun dest =>
             decide ((place2var hick_net.places dest.name).getD 0 ∉
               tran.origins.map (fun orig => (place2var hick_net.places orig.name).getD 0)))).map
           (fun dest => SASPrePost.mk ((place2var hick_net.places dest.name).getD 0) 0 1 []))
        tran.cost) :=
  claim_C8 hick_net (GoalCond.lit ⟨false, "d", []⟩) hick_sas (by decide)

/-! ### Claim C9 -/

theorem flatMap_congr_left {l : List α} {f g : α → List β}
    (h : ∀ a ∈ l, f a = g a) : l.flatMap f = l.flatMap g := by
  induction l with
  | nil => rfl
  | cons a l ih =>
    rw [List.flatMap_cons, List.flatMap_cons, h a (List.mem_cons_self _ _),
      ih (fun a ha => h a (List.mem_cons_of_mem _ ha))]

theorem enum_snd_mem {l : List α} {ip : Nat × α} (h : ip ∈ l.enum) : ip.2 ∈ l := by
  have := List.mem_map_of_mem Prod.snd h
  rwa [List.enum_map_snd] at this

theorem petri_goals_erase (places : List PetriPlace) (gs : List Literal) (g : Literal)
    (hnomatch : ∀ place ∈ places, strLit g ≠ place.name ∧ strLit g.negate ≠ place.name) :
    petri_goals_of places (gs.filter (fun q => !(q == g))) = petri_goals_of places gs := by
  rw [petri_goals_of, petri_goals_of]
  refine flatMap_congr_left (fun ip hip => ?_)
  have hmem := enum_snd_mem hip
  induction gs with
  | nil => rfl
  | cons q gs ih =>
    by_cases hq : q = g
    · subst hq
      rw [List.filter_cons_of_neg (by simp), List.flatMap_cons, ih]
      have h1 : (if strLit q == ip.2.name then [(ip.1, 1)] else []) = [] := by
        rw [if_neg]
        intro hc
        exact (hnomatch ip.2 hmem).1 (eq_of_beq hc)
      have h2 : (if strLit q.negate == ip.2.name then [(ip.1, 0)] else []) = [] := by
        rw [if_neg]
        intro hc
        exact (hnomatch ip.2 hmem).2 (eq_of_beq hc)
      rw [h1, h2]
      rfl
    · rw [List.filter_cons_of_pos (by simp [hq]), List.flatMap_cons, List.flatMap_cons, ih]

/-- A net with a single place for the atom `a` and no transition. -/
def c9_net : PetriNet := ⟨[⟨"Atom a()", 1⟩], []⟩

/-- A goal consisting of the single atom `g`, which matches no place of
`c9_net`, neither positively nor negatively. -/
def c9_goal : GoalCond := .lit ⟨false, "g", []⟩

/-- C9, counterexample: with a goal literal that has no corresponding place,
`sas_translate` completes normally (it returns an encoding rather than
failing) and the emitted goal-pair list is empty — the goal literal is
silently omitted. -/
theorem claim_C9_counterexample :
    (∀ place ∈ c9_net.places,
        strLit (⟨false, "g", []⟩ : Literal) ≠ place.name ∧
        strLit (Literal.negate ⟨false, "g", []⟩) ≠ place.name) ∧
    sas_translate c9_net c9_goal =
      some ⟨[2], [-1], [["Atom a()(false)", "Atom a()(true)"]], [1], [], [], [], [], true⟩ := by
  exact ⟨by decide, by rfl⟩

/-- C9, amended: if a top-level goal literal has no corresponding place
(neither its string form nor its negation's string form matches any place
name), `sas_translate` does not fail: it completes — whenever the operator
translation succeeds — and produces an encoding whose goal pairs simply omit
that literal (removing the literal from the goal list leaves the emitted
goal pairs unchanged). -/
theorem claim_C9_amended (net : PetriNet) (goal : GoalCond)
    (htrans : ∃ ops, net.transitions.mapM (sas_operator (place2var net.places)) = some ops)
    (g : Literal)
    (hnomatch : ∀ place ∈ net.places,
      strLit g ≠ place.name ∧ strLit g.negate ≠ place.name) :
    ∃ task, sas_translate net goal = some task ∧
      task.goals = petri_goals_of net.places (pddl_goals_of goal) ∧
      petri_goals_of net.places ((pddl_goals_of goal).filter (fun q => !(q == g))) =
        task.goals := by
  rcases htrans with ⟨ops, hops⟩
  refine ⟨{ ranges := net.places.map (fun _ => 2)
            axiom_layers := net.places.map (fun _ => (-1 : Int))
            value_names := net.places.map (fun p => [p.name ++ "(false)", p.name ++ "(true)"])
            init_values := net.places.map (fun p => if p.tokens > 0 then 1 else 0)
            goals := petri_goals_of net.places (pddl_goals_of goal)
            mutexes := []
            operators := ops
            axioms := []
            metric := true }, ?_, rfl, ?_⟩
  · simp only [sas_translate, Option.bind_eq_bind, hops, Option.some_bind]
    rfl
  · exact petri_goals_erase net.places (pddl_goals_of goal) g hnomatch

theorem claim_C9_amended_witness :
    ∃ task, sas_translate c9_net c9_goal = some task ∧
      task.goals = petri_goals_of c9_net.places (pddl_goals_of c9_goal) ∧
      petri_goals_of c9_net.places
          ((pddl_goals_of c9_goal).filter (fun q => !(q == (⟨false, "g", []⟩ : Literal)))) =
        task.goals :=
  claim_C9_amended c9_net c9_goal ⟨[], rfl⟩ ⟨false, "g", []⟩ (by decide)

/-! ### Claim C6: token-game semantics and the complement invariant

The source has no firing function; the marking semantics below is modelled
from the spec (place/transition net, token game, §3 and the glossary). -/

/-- Modelled from the spec: the marking of a net — the token count of the
place with the given name (0 when no such place exists; place names are
unique in a well-formed net, §3 invariant 1). -/
def markingOf (net : PetriNet) (nm : String) : Nat :=
  ((net.places.find? (fun p => p.name == nm)).map (fun p => p.tokens)).getD 0

/-- Modelled from the spec: a transition is enabled in a marking when every
origin place holds a token. -/
def enabled (m : String → Nat) (t : PetriTransition) : Prop :=
  ∀ p ∈ t.origins, 1 ≤ m p.name

/-- Modelled from the spec: firing a transition consumes one token per
distinct origin place and produces one per distinct destination place
(duplicate arcs referencing the same place are collapsed, §3 invariant 2). -/
def fire (m : String → Nat) (t : PetriTransition) : String → Nat :=
  fun nm =>
    (m nm - (if t.origins.any (fun p => p.name == nm) then 1 else 0)) +
      (if t.destinations.any (fun p => p.name == nm) then 1 else 0)

/-- Exactly one of the two named places holds a token. -/
def exactlyOne (m : String → Nat) (s₁ s₂ : String) : Prop :=
  (m s₁ = 1 ∧ m s₂ = 0) ∨ (m s₁ = 0 ∧ m s₂ = 1)

/-- All literals appearing in an action: precondition literals, add-effect
literals and (stored) del-effect literals. -/
def opLits (op : PropositionalAction) : List Literal :=
  op.precondition ++ op.add_effects.map (fun ce => ce.2) ++
    op.del_effects.map (fun ce => ce.2)

/-- The literals of a list of operators together with their negations. -/
def litsWithNeg (ops : List PropositionalAction) : List Literal :=
  ops.flatMap opLits ++ (ops.flatMap opLits).map Literal.negate

/-- The `not_`-prefixed copy of a literal (same polarity, same arguments). -/
def pn (l : Literal) : Literal := { l with predicate := "not_" ++ l.predicate }

/-- The universe of literals the pipeline can mention for a given input:
the original atoms, the input operators' literals and their negations, and
the `not_`-prefixed copies of the latter. -/
def litUniverse (ops : List PropositionalAction) (atoms : List Literal) : List Literal :=
  atoms ++ litsWithNeg ops ++ (litsWithNeg ops).map pn

theorem mkNot_eq_pn_negate (l : Literal) : mkNot l = pn l.negate := rfl

theorem pn_negate (l : Literal) : (pn l).negate = pn l.negate := rfl

theorem negate_mem_litsWithNeg {ops : List PropositionalAction} {l : Literal}
    (h : l ∈ litsWithNeg ops) : l.negate ∈ litsWithNeg ops := by
  rw [litsWithNeg, List.mem_append] at h ⊢
  rcases h with h | h
  · exact Or.inr (List.mem_map_of_mem _ h)
  · rcases List.mem_map.mp h with ⟨m, hm, rfl⟩
    rw [Literal.negate_negate]
    exact Or.inl hm

theorem predicate_of_litsWithNeg {ops : List PropositionalAction} {l : Literal}
    (h : l ∈ litsWithNeg ops) : ∃ m ∈ ops.flatMap opLits, l.predicate = m.predicate := by
  rw [litsWithNeg, List.mem_append] at h
  rcases h with h | h
  · exact ⟨l, h, rfl⟩
  · rcases List.mem_map.mp h with ⟨m, hm, rfl⟩
    exact ⟨m, hm, rfl⟩

theorem effLits_subset_opLits {op : PropositionalAction} {l : Literal}
    (h : l ∈ effLits op) : l ∈ opLits op ∨ ∃ m ∈ opLits op, l = m.negate := by
  rw [effLits, join_add_del_effects, List.mem_append] at h
  rcases h with h | h
  · exact Or.inl (by rw [opLits]; simp only [List.mem_append]; exact Or.inl (Or.inr h))
  · rcases List.mem_map.mp h with ⟨ce, hce, rfl⟩
    refine Or.inr ⟨ce.2, ?_, rfl⟩
    rw [opLits]
    simp only [List.mem_append]
    exact Or.inr (List.mem_map_of_mem _ hce)

theorem effLits_mem_litsWithNeg {ops : List PropositionalAction}
    {op : PropositionalAction} (hop : op ∈ ops) {l : Literal} (h : l ∈ effLits op) :
    l ∈ litsWithNeg ops := by
  rcases effLits_subset_opLits h with h | ⟨m, hm, rfl⟩
  · rw [litsWithNeg, List.mem_append]
    exact Or.inl (List.mem_flatMap.mpr ⟨op, hop, h⟩)
  · rw [litsWithNeg, List.mem_append]
    exact Or.inr (List.mem_map_of_mem _ (List.mem_flatMap.mpr ⟨op, hop, hm⟩))

theorem precond_mem_litsWithNeg {ops : List PropositionalAction}
    {op : PropositionalAction} (hop : op ∈ ops) {l : Literal}
    (h : l ∈ op.precondition) : l ∈ litsWithNeg ops := by
  rw [litsWithNeg, List.mem_append]
  exact Or.inl (List.mem_flatMap.mpr ⟨op, hop, by
    rw [opLits]; simp only [List.mem_append]; exact Or.inl (Or.inl h)⟩)

theorem mem_foldl_sinsert_plain [DecidableEq α] :
    ∀ (l acc : List α) (x : α), x ∈ l.foldl sinsert acc ↔ x ∈ acc ∨ x ∈ l := by
  intro l
  induction l with
  | nil => simp
  | cons a l ih =>
    intro acc x
    rw [List.foldl_cons, ih, mem_sinsert, List.mem_cons]
    tauto

theorem mem_expand_operator {op o : PropositionalAction} (ho : o ∈ expand_operator op) :
    (ambiguousEffects op = [] ∧ o = op) ∨
      ∃ i ep, ep ∈ powerset (ambiguousEffects op) ∧ o = synth_op op i ep := by
  by_cases hk : ambiguousEffects op = []
  · left
    have hpass : expand_operator op = [op] := by
      rw [expand_operator, hk]
      rfl
    rw [hpass, List.mem_singleton] at ho
    exact ⟨hk, ho⟩
  · right
    rw [expand_operator_eq op hk] at ho
    rcases List.mem_map.mp ho with ⟨ie, hie, rfl⟩
    exact ⟨ie.1 + 1, ie.2, enum_snd_mem hie, rfl⟩

theorem mem_effLits_synth_op {op : PropositionalAction} {i : Nat} {ep : List Literal}
    {l : Literal} :
    l ∈ effLits (synth_op op i ep) ↔ l ∈ settledEffects op ∨ l ∈ ep := by
  show l ∈ effLits (mkAction _ _
    (((settledEffects op ++ ep).dedup).map (fun eff => ([], eff))) _) ↔ _
  rw [mem_effLits_mkAction, List.mem_dedup, List.mem_append]

theorem settled_mem_precondition {op : PropositionalAction} {e : Literal}
    (h : not_negated_effect e op.precondition = false) :
    e ∈ op.precondition ∨ e.negate ∈ op.precondition := by
  rw [not_negated_effect, List.all_eq_false] at h
  rcases h with ⟨part, hpart, hp⟩
  have hor : (part == e.negate || part == e) = true := by
    revert hp
    cases part == e.negate || part == e <;> simp
  have hor' : part = e.negate ∨ part = e := by simpa using hor
  rcases hor' with rfl | rfl
  · exact Or.inr hpart
  · exact Or.inl hpart

theorem mem_of_settled {op : PropositionalAction} {e : Literal}
    (h : e ∈ settledEffects op) :
    e ∈ effLits op ∧ not_negated_effect e op.precondition = false := by
  rw [settledEffects, List.mem_dedup, List.mem_filter] at h
  exact ⟨h.1, by simpa using h.2⟩

theorem mem_of_ambiguous {op : PropositionalAction} {e : Literal}
    (h : e ∈ ambiguousEffects op) :
    e ∈ effLits op ∧ not_negated_effect e op.precondition = true := by
  rw [ambiguousEffects, List.mem_filter] at h
  exact h

/-- §8 Safety: every effect of a safe operator is settled against its own
precondition — the effect or its negation is a precondition literal. -/
theorem safety_get_safe_operators {ops : List PropositionalAction}
    {sop : PropositionalAction} (hsop : sop ∈ get_safe_operators ops) :
    ∀ e ∈ effLits sop, e ∈ sop.precondition ∨ e.negate ∈ sop.precondition := by
  rw [get_safe_operators] at hsop
  rcases List.mem_flatMap.mp hsop with ⟨op, _, hin⟩
  rcases mem_expand_operator hin with ⟨hk, rfl⟩ | ⟨i, ep, hep, rfl⟩
  · intro e he
    have hnn : not_negated_effect e sop.precondition = false := by
      by_contra hc
      have hmem : e ∈ ambiguousEffects sop := by
        rw [ambiguousEffects, List.mem_filter]
        exact ⟨he, by revert hc; cases not_negated_effect e sop.precondition <;> simp⟩
      rw [hk] at hmem
      cases hmem
    exact settled_mem_precondition hnn
  · intro e he
    rw [mem_effLits_synth_op] at he
    rcases he with he | he
    · rcases settled_mem_precondition (mem_of_settled he).2 with h | h
      · refine Or.inl ((mem_precondition_synth_op op i ep e).mpr (Or.inl ?_))
        rw [List.mem_dedup]
        exact h
      · refine Or.inr ((mem_precondition_synth_op op i ep e.negate).mpr (Or.inl ?_))
        rw [List.mem_dedup]
        exact h
    · have hamb : e ∈ ambiguousEffects op := (mem_powerset.mp hep).subset he
      refine Or.inr ((mem_precondition_synth_op op i ep e.negate).mpr (Or.inr ?_))
      refine ⟨e, hamb, ?_⟩
      rw [if_pos]
      rw [List.mem_dedup, List.mem_append]
      exact Or.inr he

/-- Effects of a safe operator are effects of its source operator. -/
theorem effLits_safe_subset {ops : List PropositionalAction}
    {sop : PropositionalAction} (hsop : sop ∈ get_safe_operators ops) :
    ∃ op ∈ ops, ∀ l ∈ effLits sop, l ∈ effLits op := by
  rw [get_safe_operators] at hsop
  rcases List.mem_flatMap.mp hsop with ⟨op, hop, hin⟩
  refine ⟨op, hop, ?_⟩
  rcases mem_expand_operator hin with ⟨_, rfl⟩ | ⟨i, ep, hep, rfl⟩
  · exact fun l hl => hl
  · intro l hl
    rw [mem_effLits_synth_op] at hl
    rcases hl with hl | hl
    · exact (mem_of_settled hl).1
    · exact (mem_of_ambiguous ((mem_powerset.mp hep).subset hl)).1

/-- If no input operator both adds and deletes the same atom, no safe
operator does either. -/
theorem no_conflict_get_safe_operators {ops : List PropositionalAction}
    (hdisj : ∀ op ∈ ops, ∀ l ∈ effLits op, l.negate ∉ effLits op)
    {sop : PropositionalAction} (hsop : sop ∈ get_safe_operators ops) :
    ∀ l ∈ effLits sop, l.negate ∉ effLits sop := by
  rcases effLits_safe_subset hsop with ⟨op, hop, hsub⟩
  intro l hl hneg
  exact hdisj op hop l (hsub l hl) (hsub l.negate hneg)

/-- Every literal of a safe operator lies in `litsWithNeg` of the input. -/
theorem safe_lits_subset {ops : List PropositionalAction}
    {sop : PropositionalAction} (hsop : sop ∈ get_safe_operators ops) :
    (∀ l ∈ sop.precondition, l ∈ litsWithNeg ops) ∧
    (∀ l ∈ effLits sop, l ∈ litsWithNeg ops) := by
  rw [get_safe_operators] at hsop
  rcases List.mem_flatMap.mp hsop with ⟨op, hop, hin⟩
  have heff : ∀ l ∈ effLits sop, l ∈ litsWithNeg ops := by
    rcases effLits_safe_subset (by
      rw [get_safe_operators]
      exact List.mem_flatMap.mpr ⟨op, hop, hin⟩) with ⟨op', hop', hsub⟩
    exact fun l hl => effLits_mem_litsWithNeg hop' (hsub l hl)
  refine ⟨?_, heff⟩
  rcases mem_expand_operator hin with ⟨_, rfl⟩ | ⟨i, ep, hep, rfl⟩
  · exact fun l hl => precond_mem_litsWithNeg hop hl
  · intro l hl
    rcases (mem_precondition_synth_op op i ep l).mp hl with h | ⟨nn, hnn, h⟩
    · rw [List.mem_dedup] at h
      exact precond_mem_litsWithNeg hop h
    · have hnnE : nn ∈ effLits op := (mem_of_ambiguous hnn).1
      have hnnL : nn ∈ litsWithNeg ops := effLits_mem_litsWithNeg hop hnnE
      rw [h]
      split
      · exact negate_mem_litsWithNeg hnnL
      · exact hnnL

/-- Characterization of the complement-mapping entries. -/
theorem mapping_mem {safe : List PropositionalAction} {pr : Literal × Literal}
    (hpr : pr ∈ (remove_negative_preconditions safe).2) :
    pr.1.negated = true ∧ pr.2 = mkNot pr.1 ∧
      ∃ sop ∈ safe, pr.1 ∈ sop.precondition ∨ pr.1 ∈ effLits sop := by
  rw [remove_negative_preconditions] at hpr
  rcases List.mem_map.mp hpr with ⟨k, hk, rfl⟩
  rw [mem_foldl_sinsert_plain] at hk
  rcases hk with hk | hk
  · cases hk
  · rcases List.mem_flatMap.mp hk with ⟨sop, hsop, hkop⟩
    rw [rnp_keys_op, List.mem_append] at hkop
    rcases hkop with hkop | hkop
    · rw [List.mem_filter] at hkop
      exact ⟨hkop.2, rfl, sop, hsop, Or.inl hkop.1⟩
    · rw [List.mem_filter] at hkop
      exact ⟨hkop.2, rfl, sop, hsop, Or.inr hkop.1⟩

theorem rnp_fst (safe : List PropositionalAction) :
    (remove_negative_preconditions safe).1 = safe.map rnp_op := rfl

theorem rnp_op_precondition (sop : PropositionalAction) :
    (rnp_op sop).precondition = sop.precondition.map posify := rfl

theorem adds_mkAction (n : String) (p : List Literal) (el : List Literal) (c : Nat) :
    (mkAction n p (el.map (fun e => (([] : List Literal), e))) c).add_effects.map
        (fun ce => ce.2) =
      el.filter (fun x => !x.negated) := by
  simp [mkAction, List.filter_map, List.map_map, Function.comp_def]

theorem dels_mkAction (n : String) (p : List Literal) (el : List Literal) (c : Nat) :
    (mkAction n p (el.map (fun e => (([] : List Literal), e))) c).del_effects.map
        (fun ce => ce.2) =
      (el.filter (fun x => x.negated)).map Literal.negate := by
  simp [mkAction, List.filter_map, List.map_map, Function.comp_def]

theorem rnp_op_adds (sop : PropositionalAction) :
    (rnp_op sop).add_effects.map (fun ce => ce.2) =
      (effLits sop ++ (effLits sop).map mkNot).filter (fun x => !x.negated) :=
  adds_mkAction _ _ _ _

theorem rnp_op_dels (sop : PropositionalAction) :
    (rnp_op sop).del_effects.map (fun ce => ce.2) =
      ((effLits sop ++ (effLits sop).map mkNot).filter
        (fun x => x.negated)).map Literal.negate :=
  dels_mkAction _ _ _ _

theorem string_append_left_cancel {s t u : String} (h : s ++ t = s ++ u) : t = u := by
  have hd := congrArg String.data h
  simp only [String.data_append] at hd
  exact String.ext (List.append_cancel_left hd)

theorem pn_inj {l₁ l₂ : Literal} (h : pn l₁ = pn l₂) : l₁ = l₂ := by
  cases l₁
  cases l₂
  simp only [pn, Literal.mk.injEq] at h ⊢
  exact ⟨h.1, string_append_left_cancel h.2.1, h.2.2⟩

/-- The input predicates never carry the reserved `not_` marker. -/
def CleanPreds (ops : List PropositionalAction) : Prop :=
  ∀ l ∈ ops.flatMap opLits, ∀ s, l.predicate ≠ "not_" ++ s

theorem clean_litsWithNeg {ops : List PropositionalAction} (hc : CleanPreds ops)
    {l : Literal} (hl : l ∈ litsWithNeg ops) : ∀ s, l.predicate ≠ "not_" ++ s := by
  rcases predicate_of_litsWithNeg hl with ⟨m, hm, he⟩
  intro s
  rw [he]
  exact hc m hm s

theorem forall₂_map_eq {R : α → β → Prop} {g : β → γ} {h : α → γ} :
    ∀ {l : List α} {r : List β}, List.Forall₂ R l r →
      (∀ a b, R a b → g b = h a) → r.map g = l.map h := by
  intro l r hf
  induction hf with
  | nil => intro _; rfl
  | cons hab _ ih =>
    intro hg
    rw [List.map_cons, List.map_cons, ih hg, hg _ _ hab]

theorem placesDict_name {atoms : List Literal} {al : List (Literal × Literal)}
    {clean : List Literal} {a : Literal} {p : PetriPlace}
    (h : placesDict atoms al clean a = some p) : p.name = strLit a := by
  rw [placesDict] at h
  rcases Option.map_eq_some'.mp h with ⟨kv, hkv, rfl⟩
  have hpred := List.find?_some hkv
  have hmem := List.mem_of_find?_eq_some hkv
  rw [List.mem_reverse, List.mem_append] at hmem
  have hkey : kv.1 = a := by simpa using hpred
  have hname : kv.2.name = strLit kv.1 := by
    rcases hmem with hmem | hmem
    · rcases List.mem_map.mp hmem with ⟨at_, _, heq⟩
      rw [← heq]
      rfl
    · rcases List.mem_map.mp hmem with ⟨pr, _, heq⟩
      rw [← heq]
      rfl
  rw [hname, hkey]

theorem find?_name_of_mem_nodup {places : List PetriPlace}
    (hnd : (places.map (fun p => p.name)).Nodup) {p : PetriPlace} (hp : p ∈ places) :
    places.find? (fun q => q.name == p.name) = some p := by
  induction places with
  | nil => cases hp
  | cons q places ih =>
    rw [List.map_cons, List.nodup_cons] at hnd
    rcases List.mem_cons.mp hp with rfl | hp'
    · rw [List.find?_cons_of_pos]
      simp
    · have hne : q.name ≠ p.name := by
        intro he
        exact hnd.1 (he ▸ List.mem_map_of_mem _ hp')
      rw [List.find?_cons_of_neg]
      · exact ih hnd.2 hp'
      · simp [hne]

theorem petriPlaces_names (atoms : List Literal) (al : List (Literal × Literal))
    (clean : List Literal) :
    (petriPlaces atoms al clean).map (fun p => p.name) =
      atoms.map strLit ++ al.map (fun pr => strLit pr.2) := by
  rw [petriPlaces, List.map_append, List.map_map, List.map_map]
  rfl

theorem markingOf_eq_of_mem {net : PetriNet}
    (hnd : (net.places.map (fun p => p.name)).Nodup)
    {p : PetriPlace} (hp : p ∈ net.places) : markingOf net p.name = p.tokens := by
  rw [markingOf, find?_name_of_mem_nodup hnd hp]
  rfl

theorem transition_of_some {lookup : Literal → Option PetriPlace}
    {op : PropositionalAction} {t : PetriTransition}
    (h : transition_of lookup op = some t)
    (hname : ∀ a p, lookup a = some p → p.name = strLit a) :
    t.origins.map (fun p => p.name) = op.precondition.map strLit ∧
    t.destinations.map (fun p => p.name) = (transition_destinations op).map strLit := by
  simp only [transition_of, Option.bind_eq_bind, Option.bind_eq_some, Option.pure_def,
    Option.some.injEq] at h
  rcases h with ⟨origins, ho, dests, hd, ht⟩
  rw [← ht]
  exact ⟨forall₂_map_eq (mapM_option_forall₂ ho) (fun a p hp => hname a p hp),
         forall₂_map_eq (mapM_option_forall₂ hd) (fun a p hp => hname a p hp)⟩

theorem mem_strs_foldl_dests (del_strs : List String) :
    ∀ (pre acc : List Literal) (s : String),
    (s ∈ (pre.foldl (fun dests precond =>
        if strLit precond ∈ dests.map strLit ∨ strLit precond ∈ del_strs then dests
        else dests ++ [precond]) acc).map strLit) ↔
      s ∈ acc.map strLit ∨ (s ∈ pre.map strLit ∧ s ∉ del_strs) := by
  intro pre
  induction pre with
  | nil =>
    intro acc s
    simp
  | cons pc pre ih =>
    intro acc s
    rw [List.foldl_cons]
    by_cases hc : strLit pc ∈ acc.map strLit ∨ strLit pc ∈ del_strs
    · rw [if_pos hc, ih, List.map_cons]
      constructor
      · rintro (h | h)
        · exact Or.inl h
        · exact Or.inr ⟨List.mem_cons_of_mem _ h.1, h.2⟩
      · rintro (h | ⟨h1, h2⟩)
        · exact Or.inl h
        · rcases List.mem_cons.mp h1 with rfl | h1'
          · rcases hc with hc | hc
            · exact Or.inl hc
            · exact absurd hc h2
          · exact Or.inr ⟨h1', h2⟩
    · rw [if_neg hc, ih]
      push_neg at hc
      rw [List.map_append, List.map_cons]
      constructor
      · rintro (h | h)
        · rcases List.mem_append.mp h with h' | h'
          · exact Or.inl h'
          · have hs : s = strLit pc := by simpa using h'
            refine Or.inr ⟨?_, ?_⟩
            · rw [hs]
              exact List.mem_cons_self _ _
            · rw [hs]
              exact hc.2
        · exact Or.inr ⟨List.mem_cons_of_mem _ h.1, h.2⟩
      · rintro (h | ⟨h1, h2⟩)
        · exact Or.inl (List.mem_append.mpr (Or.inl h))
        · rcases List.mem_cons.mp h1 with rfl | h1'
          · exact Or.inl (List.mem_append.mpr (Or.inr (by simp)))
          · exact Or.inr ⟨h1', h2⟩

set_option maxHeartbeats 2000000 in
theorem mem_strs_transition_destinations (op : PropositionalAction) (s : String) :
    s ∈ (transition_destinations op).map strLit ↔
      s ∈ (op.add_effects.map (fun ce => ce.2)).map strLit ∨
        (s ∈ op.precondition.map strLit ∧
          s ∉ op.del_effects.map (fun dele => strLit dele.2)) := by
  simp only [transition_destinations]
  exact mem_strs_foldl_dests _ op.precondition _ s

theorem U_of_atoms {ops₀ : List PropositionalAction} {atoms : List Literal}
    {l : Literal} (h : l ∈ atoms) : l ∈ litUniverse ops₀ atoms := by
  rw [litUniverse, List.append_assoc, List.mem_append]
  exact Or.inl h

theorem U_of_lits {ops₀ : List PropositionalAction} {atoms : List Literal}
    {l : Literal} (h : l ∈ litsWithNeg ops₀) : l ∈ litUniverse ops₀ atoms := by
  rw [litUniverse, List.append_assoc, List.mem_append, List.mem_append]
  exact Or.inr (Or.inl h)

theorem U_of_pn {ops₀ : List PropositionalAction} {atoms : List Literal}
    {l : Literal} (h : l ∈ litsWithNeg ops₀) : pn l ∈ litUniverse ops₀ atoms := by
  rw [litUniverse, List.append_assoc, List.mem_append, List.mem_append]
  exact Or.inr (Or.inr (List.mem_map_of_mem _ h))

theorem posify_mem_U {ops₀ : List PropositionalAction} {atoms : List Literal}
    {l : Literal} (h : l ∈ litsWithNeg ops₀) : posify l ∈ litUniverse ops₀ atoms := by
  rw [posify]
  split
  · rw [mkNot_eq_pn_negate]
    exact U_of_pn (negate_mem_litsWithNeg h)
  · exact U_of_lits h

/-- M1: the positive pair atom occurs among the rewritten precondition
strings exactly when it occurs among the original precondition literals. -/
theorem mem_strs_posify_pos {ops₀ : List PropositionalAction} {atoms : List Literal}
    (hinj : ∀ l₁ ∈ litUniverse ops₀ atoms, ∀ l₂ ∈ litUniverse ops₀ atoms,
      strLit l₁ = strLit l₂ → l₁ = l₂)
    {pre : List Literal} (hpre : ∀ l ∈ pre, l ∈ litsWithNeg ops₀)
    {A : Literal} (hA : A ∈ litsWithNeg ops₀) (hApos : A.negated = false)
    (hAclean : ∀ s, A.predicate ≠ "not_" ++ s) :
    strLit A ∈ (pre.map posify).map strLit ↔ A ∈ pre := by
  rw [List.map_map]
  constructor
  · intro h
    rcases List.mem_map.mp h with ⟨l, hl, heq⟩
    have he : posify l = A :=
      hinj _ (posify_mem_U (hpre l hl)) _ (U_of_lits hA) heq
    rw [posify] at he
    split at he
    · exfalso
      have hp : A.predicate = "not_" ++ l.predicate := by
        rw [← he]
        rfl
      exact hAclean l.predicate hp
    · exact he ▸ hl
  · intro h
    refine List.mem_map.mpr ⟨A, h, ?_⟩
    have hid : posify A = A := by
      rw [posify, if_neg]
      simp [hApos]
    show strLit (posify A) = strLit A
    rw [hid]

/-- M2: the complement atom occurs among the rewritten precondition strings
exactly when the original negated literal occurs among the precondition
literals. -/
theorem mem_strs_posify_pn {ops₀ : List PropositionalAction} {atoms : List Literal}
    (hclean : CleanPreds ops₀)
    (hinj : ∀ l₁ ∈ litUniverse ops₀ atoms, ∀ l₂ ∈ litUniverse ops₀ atoms,
      strLit l₁ = strLit l₂ → l₁ = l₂)
    {pre : List Literal} (hpre : ∀ l ∈ pre, l ∈ litsWithNeg ops₀)
    {orig : Literal} (horig : orig ∈ litsWithNeg ops₀) (hneg : orig.negated = true) :
    strLit (pn orig.negate) ∈ (pre.map posify).map strLit ↔ orig ∈ pre := by
  rw [List.map_map]
  constructor
  · intro h
    rcases List.mem_map.mp h with ⟨l, hl, heq⟩
    have he : posify l = pn orig.negate :=
      hinj _ (posify_mem_U (hpre l hl)) _ (U_of_pn (negate_mem_litsWithNeg horig)) heq
    rw [posify] at he
    split at he
    · rw [mkNot_eq_pn_negate] at he
      have := Literal.negate_inj (pn_inj he)
      exact this ▸ hl
    · exfalso
      have hp : l.predicate = "not_" ++ orig.negate.predicate := by
        rw [he]
        rfl
      exact clean_litsWithNeg hclean (hpre l hl) orig.negate.predicate hp
  · intro h
    refine List.mem_map.mpr ⟨orig, h, ?_⟩
    show strLit (posify orig) = strLit (pn orig.negate)
    rw [posify, if_pos hneg, mkNot_eq_pn_negate]

/-- M3: the positive pair atom occurs among the add-destination strings of a
rewritten operator exactly when it is an effect of the safe operator. -/
theorem mem_strs_adds_pos {ops₀ : List PropositionalAction} {atoms : List Literal}
    (hinj : ∀ l₁ ∈ litUniverse ops₀ atoms, ∀ l₂ ∈ litUniverse ops₀ atoms,
      strLit l₁ = strLit l₂ → l₁ = l₂)
    {E : List Literal} (hE : ∀ l ∈ E, l ∈ litsWithNeg ops₀)
    {A : Literal} (hA : A ∈ litsWithNeg ops₀) (hApos : A.negated = false)
    (hAclean : ∀ s, A.predicate ≠ "not_" ++ s) :
    strLit A ∈ ((E ++ E.map mkNot).filter (fun x => !x.negated)).map strLit ↔ A ∈ E := by
  constructor
  · intro h
    rcases List.mem_map.mp h with ⟨x, hx, heq⟩
    have hx' := (List.mem_filter.mp hx).1
    rw [List.mem_append] at hx'
    rcases hx' with hx' | hx'
    · have := hinj _ (U_of_lits (hE x hx')) _ (U_of_lits hA) heq
      exact this ▸ hx'
    · exfalso
      rcases List.mem_map.mp hx' with ⟨e, he, rfl⟩
      rw [mkNot_eq_pn_negate] at heq
      have := hinj _ (U_of_pn (negate_mem_litsWithNeg (hE e he))) _ (U_of_lits hA) heq
      have hp : A.predicate = "not_" ++ e.negate.predicate := by
        rw [← this]
        rfl
      exact hAclean e.negate.predicate hp
  · intro h
    refine List.mem_map.mpr ⟨A, ?_, rfl⟩
    rw [List.mem_filter]
    exact ⟨List.mem_append.mpr (Or.inl h), by simp [hApos]⟩

/-- M4: the complement atom occurs among the add-destination strings exactly
when the original negated literal is an effect of the safe operator. -/
theorem mem_strs_adds_pn {ops₀ : List PropositionalAction} {atoms : List Literal}
    (hclean : CleanPreds ops₀)
    (hinj : ∀ l₁ ∈ litUniverse ops₀ atoms, ∀ l₂ ∈ litUniverse ops₀ atoms,
      strLit l₁ = strLit l₂ → l₁ = l₂)
    {E : List Literal} (hE : ∀ l ∈ E, l ∈ litsWithNeg ops₀)
    {orig : Literal} (horig : orig ∈ litsWithNeg ops₀) (hneg : orig.negated = true) :
    strLit (pn orig.negate) ∈
      ((E ++ E.map mkNot).filter (fun x => !x.negated)).map strLit ↔ orig ∈ E := by
  constructor
  · intro h
    rcases List.mem_map.mp h with ⟨x, hx, heq⟩
    have hx' := (List.mem_filter.mp hx).1
    rw [List.mem_append] at hx'
    rcases hx' with hx' | hx'
    · exfalso
      have := hinj _ (U_of_lits (hE x hx')) _ (U_of_pn (negate_mem_litsWithNeg horig)) heq
      have hp : x.predicate = "not_" ++ orig.negate.predicate := by
        rw [this]
        rfl
      exact clean_litsWithNeg hclean (hE x hx') orig.negate.predicate hp
    · rcases List.mem_map.mp hx' with ⟨e, he, rfl⟩
      rw [mkNot_eq_pn_negate] at heq
      have := hinj _ (U_of_pn (negate_mem_litsWithNeg (hE e he))) _
        (U_of_pn (negate_mem_litsWithNeg horig)) heq
      have he2 := Literal.negate_inj (pn_inj this)
      exact he2 ▸ he
  · intro h
    refine List.mem_map.mpr ⟨mkNot orig, ?_, by rw [mkNot_eq_pn_negate]⟩
    rw [List.mem_filter]
    refine ⟨List.mem_append.mpr (Or.inr (List.mem_map_of_mem _ h)), ?_⟩
    show (!(mkNot orig).negated) = true
    rw [mkNot]
    simp [hneg]

/-- M5: the positive pair atom occurs among the del-effect strings of a
rewritten operator exactly when the original negated literal is an effect of
the safe operator. -/
theorem mem_strs_dels_pos {ops₀ : List PropositionalAction} {atoms : List Literal}
    (hinj : ∀ l₁ ∈ litUniverse ops₀ atoms, ∀ l₂ ∈ litUniverse ops₀ atoms,
      strLit l₁ = strLit l₂ → l₁ = l₂)
    {E : List Literal} (hE : ∀ l ∈ E, l ∈ litsWithNeg ops₀)
    {orig : Literal} (horig : orig ∈ litsWithNeg ops₀) (hneg : orig.negated = true)
    (hAclean : ∀ s, orig.negate.predicate ≠ "not_" ++ s) :
    strLit orig.negate ∈
      (((E ++ E.map mkNot).filter (fun x => x.negated)).map Literal.negate).map strLit ↔
      orig ∈ E := by
  constructor
  · intro h
    rcases List.mem_map.mp h with ⟨y, hy, heq⟩
    rcases List.mem_map.mp hy with ⟨x, hx, rfl⟩
    have hx' := (List.mem_filter.mp hx).1
    rw [List.mem_append] at hx'
    rcases hx' with hx' | hx'
    · have := hinj _ (U_of_lits (negate_mem_litsWithNeg (hE x hx'))) _
        (U_of_lits (negate_mem_litsWithNeg horig)) heq
      have hxo : x = orig := by
        have := congrArg Literal.negate this
        simpa using this
      exact hxo ▸ hx'
    · exfalso
      rcases List.mem_map.mp hx' with ⟨e, he, rfl⟩
      have hform : (mkNot e).negate = pn e := by
        rw [mkNot_eq_pn_negate, pn_negate, Literal.negate_negate]
      rw [hform] at heq
      have := hinj _ (U_of_pn (hE e he)) _ (U_of_lits (negate_mem_litsWithNeg horig)) heq
      have hp : orig.negate.predicate = "not_" ++ e.predicate := by
        rw [← this]
        rfl
      exact hAclean e.predicate hp
  · intro h
    refine List.mem_map.mpr ⟨orig.negate, ?_, rfl⟩
    refine List.mem_map.mpr ⟨orig, ?_, rfl⟩
    rw [List.mem_filter]
    exact ⟨List.mem_append.mpr (Or.inl h), by simp [hneg]⟩

/-- M6: the complement atom occurs among the del-effect strings exactly when
the positive pair atom is an effect of the safe operator. -/
theorem mem_strs_dels_pn {ops₀ : List PropositionalAction} {atoms : List Literal}
    (hclean : CleanPreds ops₀)
    (hinj : ∀ l₁ ∈ litUniverse ops₀ atoms, ∀ l₂ ∈ litUniverse ops₀ atoms,
      strLit l₁ = strLit l₂ → l₁ = l₂)
    {E : List Literal} (hE : ∀ l ∈ E, l ∈ litsWithNeg ops₀)
    {orig : Literal} (horig : orig ∈ litsWithNeg ops₀) (hneg : orig.negated = true) :
    strLit (pn orig.negate) ∈
      (((E ++ E.map mkNot).filter (fun x => x.negated)).map Literal.negate).map strLit ↔
      orig.negate ∈ E := by
  constructor
  · intro h
    rcases List.mem_map.mp h with ⟨y, hy, heq⟩
    rcases List.mem_map.mp hy with ⟨x, hx, rfl⟩
    have hx' := (List.mem_filter.mp hx).1
    rw [List.mem_append] at hx'
    rcases hx' with hx' | hx'
    · exfalso
      have := hinj _ (U_of_lits (negate_mem_litsWithNeg (hE x hx'))) _
        (U_of_pn (negate_mem_litsWithNeg horig)) heq
      have hp : x.negate.predicate = "not_" ++ orig.negate.predicate := by
        rw [this]
        rfl
      exact clean_litsWithNeg hclean (negate_mem_litsWithNeg (hE x hx'))
        orig.negate.predicate hp
    · rcases List.mem_map.mp hx' with ⟨e, he, rfl⟩
      have hform : (mkNot e).negate = pn e := by
        rw [mkNot_eq_pn_negate, pn_negate, Literal.negate_negate]
      rw [hform] at heq
      have := hinj _ (U_of_pn (hE e he)) _ (U_of_pn (negate_mem_litsWithNeg horig)) heq
      have he2 := pn_inj this
      exact he2 ▸ he
  · intro h
    refine List.mem_map.mpr ⟨(mkNot orig.negate).negate, ?_, ?_⟩
    · refine List.mem_map.mpr ⟨mkNot orig.negate, ?_, rfl⟩
      rw [List.mem_filter]
      refine ⟨List.mem_append.mpr (Or.inr (List.mem_map_of_mem _ h)), ?_⟩
      show (mkNot orig.negate).negated = true
      rw [mkNot]
      simp [hneg]
    · have hform : (mkNot orig.negate).negate = pn orig.negate := by
        rw [mkNot_eq_pn_negate, pn_negate, Literal.negate_negate]
      rw [hform]

theorem any_name_iff (ps : List PetriPlace) (s : String) :
    (ps.any (fun p => p.name == s) = true) ↔ s ∈ ps.map (fun p => p.name) := by
  rw [List.any_eq_true]
  constructor
  · rintro ⟨p, hp, hbeq⟩
    exact eq_of_beq hbeq ▸ List.mem_map_of_mem _ hp
  · intro h
    rcases List.mem_map.mp h with ⟨p, hp, rfl⟩
    exact ⟨p, hp, by simp⟩

/-- The complete case table of the complement-pair token balance for a single
firing, over the five relevant conditions. -/
theorem fire_table (A B P N C : Prop)
    [Decidable A] [Decidable B] [Decidable P] [Decidable N] [Decidable C]
    (hs1 : A → P ∨ N) (hs2 : B → P ∨ N) (hc : ¬(A ∧ B))
    (he1 : P → C) (he2 : N → ¬C) :
    (((if C then 1 else 0) - (if P then 1 else 0) +
        (if A ∨ (P ∧ ¬B) then 1 else 0) = 1) ∧
      ((if C then 0 else 1) - (if N then 1 else 0) +
        (if B ∨ (N ∧ ¬A) then 1 else 0) = 0)) ∨
    (((if C then 1 else 0) - (if P then 1 else 0) +
        (if A ∨ (P ∧ ¬B) then 1 else 0) = 0) ∧
      ((if C then 0 else 1) - (if N then 1 else 0) +
        (if B ∨ (N ∧ ¬A) then 1 else 0) = 1)) := by
  by_cases hA : A <;> by_cases hB : B <;> by_cases hP : P <;> by_cases hN : N <;>
    by_cases hC : C <;> simp_all

/-- C6: for every atom `p` that received a generated complement `not_p`
during polarity elimination, exactly one of the two places `Place(p)` and
`Place(not_p)` holds a token in the initial marking of the net built by
`petri_mapping` over the pipeline's output, and after firing any single
enabled transition from the initial marking exactly one of the two still
holds a token. Hypotheses: the positive pair atom is among the task atoms,
place names are pairwise distinct, no input operator both adds and deletes
one atom, input predicates avoid the reserved `not_` marker, and the string
form is injective on the pipeline's literal universe. -/
theorem claim_C6 (ops₀ : List PropositionalAction) (atoms : List Literal)
    (init : List InitEntry) (net : PetriNet)
    (hnet : petri_mapping atoms
      (remove_negative_preconditions (get_safe_operators ops₀)).2
      (remove_negative_preconditions (get_safe_operators ops₀)).1 init = some net)
    (pair : Literal × Literal)
    (hpair : pair ∈ (remove_negative_preconditions (get_safe_operators ops₀)).2)
    (hatom : pair.1.positive ∈ atoms)
    (hnodup : (atoms.map strLit ++
      (remove_negative_preconditions (get_safe_operators ops₀)).2.map
        (fun pr => strLit pr.2)).Nodup)
    (hdisj : ∀ op ∈ ops₀, ∀ l ∈ effLits op, l.negate ∉ effLits op)
    (hclean : CleanPreds ops₀)
    (hinj : ∀ l₁ ∈ litUniverse ops₀ atoms, ∀ l₂ ∈ litUniverse ops₀ atoms,
      strLit l₁ = strLit l₂ → l₁ = l₂) :
    exactlyOne (markingOf net) (strLit pair.1.positive) (strLit pair.2) ∧
    ∀ t ∈ net.transitions, enabled (markingOf net) t →
      exactlyOne (fire (markingOf net) t) (strLit pair.1.positive) (strLit pair.2) := by
  obtain ⟨hn1, hneq, sop₀, hsop₀, hor⟩ := mapping_mem hpair
  have hposneg : pair.1.positive = pair.1.negate := by
    rw [Literal.positive, Literal.negate, hn1]
    rfl
  have horigL : pair.1 ∈ litsWithNeg ops₀ := by
    rcases hor with h | h
    · exact (safe_lits_subset hsop₀).1 _ h
    · exact (safe_lits_subset hsop₀).2 _ h
  have hAL : pair.1.negate ∈ litsWithNeg ops₀ := negate_mem_litsWithNeg horigL
  have hApos : pair.1.negate.negated = false := by simp [hn1]
  have hAclean : ∀ s, pair.1.negate.predicate ≠ "not_" ++ s := by
    have := clean_litsWithNeg hclean hAL
    exact this
  have hplaces := (petri_mapping_some hnet).1
  have hnd : (net.places.map (fun p => p.name)).Nodup := by
    rw [hplaces, petriPlaces_names]
    exact hnodup
  have hmemP : atomPlace (cleanInit init) pair.1.positive ∈ net.places := by
    rw [hplaces, petriPlaces]
    exact List.mem_append.mpr (Or.inl (List.mem_map_of_mem _ hatom))
  have hmemNP : complementPlace (cleanInit init) pair ∈ net.places := by
    rw [hplaces, petriPlaces]
    exact List.mem_append.mpr (Or.inr (List.mem_map_of_mem _ hpair))
  have hmP : markingOf net (strLit pair.1.positive) =
      (if pair.1.positive ∈ cleanInit init then 1 else 0) :=
    markingOf_eq_of_mem hnd hmemP
  have hmNP : markingOf net (strLit pair.2) =
      (if pair.1.positive ∈ cleanInit init then 0 else 1) :=
    markingOf_eq_of_mem hnd hmemNP
  have hinit : exactlyOne (markingOf net) (strLit pair.1.positive) (strLit pair.2) := by
    rw [exactlyOne, hmP, hmNP]
    by_cases hcl : pair.1.positive ∈ cleanInit init
    · exact Or.inl ⟨if_pos hcl, if_pos hcl⟩
    · exact Or.inr ⟨if_neg hcl, if_neg hcl⟩
  refine ⟨hinit, ?_⟩
  intro t ht hen
  obtain ⟨op', hop', hto⟩ :=
    forall₂_mem_right (mapM_option_forall₂ (petri_mapping_some hnet).2) t ht
  rw [rnp_fst] at hop'
  rcases List.mem_map.mp hop' with ⟨sop, hsop, rfl⟩
  obtain ⟨hine, hdest⟩ := transition_of_some hto (fun a p hp => placesDict_name hp)
  have hpreL := (safe_lits_subset hsop).1
  have heffL := (safe_lits_subset hsop).2
  -- the del-effect strings of the rewritten operator
  have hdelstrs : (rnp_op sop).del_effects.map (fun dele => strLit dele.2) =
      (((effLits sop ++ (effLits sop).map mkNot).filter
        (fun x => x.negated)).map Literal.negate).map strLit := by
    have h1 : (rnp_op sop).del_effects.map (fun dele => strLit dele.2) =
        ((rnp_op sop).del_effects.map (fun ce => ce.2)).map strLit := by
      rw [List.map_map]
      rfl
    rw [h1, rnp_op_dels]
  have hs2 : strLit pair.2 = strLit (pn pair.1.negate) := by
    rw [hneq, mkNot_eq_pn_negate]
  -- membership characterizations at the two pair names
  have hoP : (strLit pair.1.negate ∈ t.origins.map (fun p => p.name)) ↔
      pair.1.negate ∈ sop.precondition := by
    rw [hine, rnp_op_precondition]
    exact mem_strs_posify_pos hinj hpreL hAL hApos hAclean
  have hoN : (strLit pair.2 ∈ t.origins.map (fun p => p.name)) ↔
      pair.1 ∈ sop.precondition := by
    rw [hs2, hine, rnp_op_precondition]
    exact mem_strs_posify_pn hclean hinj hpreL horigL hn1
  have hdP : (strLit pair.1.negate ∈ t.destinations.map (fun p => p.name)) ↔
      (pair.1.negate ∈ effLits sop ∨
        (pair.1.negate ∈ sop.precondition ∧ ¬pair.1 ∈ effLits sop)) := by
    rw [hdest, mem_strs_transition_destinations, rnp_op_adds, rnp_op_precondition, hdelstrs]
    rw [mem_strs_adds_pos hinj heffL hAL hApos hAclean,
      mem_strs_posify_pos hinj hpreL hAL hApos hAclean,
      mem_strs_dels_pos hinj heffL horigL hn1 hAclean]
  have hdN : (strLit pair.2 ∈ t.destinations.map (fun p => p.name)) ↔
      (pair.1 ∈ effLits sop ∨
        (pair.1 ∈ sop.precondition ∧ ¬pair.1.negate ∈ effLits sop)) := by
    rw [hs2, hdest, mem_strs_transition_destinations, rnp_op_adds, rnp_op_precondition,
      hdelstrs]
    rw [mem_strs_adds_pn hclean hinj heffL horigL hn1,
      mem_strs_posify_pn hclean hinj hpreL horigL hn1,
      mem_strs_dels_pn hclean hinj heffL horigL hn1]
  -- enabledness at the two pair names
  have henP : pair.1.negate ∈ sop.precondition →
      1 ≤ markingOf net (strLit pair.1.negate) := by
    intro hp
    rcases List.mem_map.mp (hoP.mpr hp) with ⟨p, hpmem, hpname⟩
    have := hen p hpmem
    rwa [hpname] at this
  have henN : pair.1 ∈ sop.precondition → 1 ≤ markingOf net (strLit pair.2) := by
    intro hp
    rcases List.mem_map.mp (hoN.mpr hp) with ⟨p, hpmem, hpname⟩
    have := hen p hpmem
    rwa [hpname] at this
  have hmP' : markingOf net (strLit pair.1.negate) =
      (if pair.1.positive ∈ cleanInit init then 1 else 0) := by
    rw [← hposneg]
    exact hmP
  -- the five conditions of the case table
  have hs1' : pair.1.negate ∈ effLits sop →
      pair.1.negate ∈ sop.precondition ∨ pair.1 ∈ sop.precondition := by
    intro h
    rcases safety_get_safe_operators hsop _ h with h' | h'
    · exact Or.inl h'
    · rw [Literal.negate_negate] at h'
      exact Or.inr h'
  have hs2' : pair.1 ∈ effLits sop →
      pair.1.negate ∈ sop.precondition ∨ pair.1 ∈ sop.precondition := by
    intro h
    rcases safety_get_safe_operators hsop _ h with h' | h'
    · exact Or.inr h'
    · exact Or.inl h'
  have hc' : ¬(pair.1.negate ∈ effLits sop ∧ pair.1 ∈ effLits sop) := by
    rintro ⟨h1, h2⟩
    have := no_conflict_get_safe_operators hdisj hsop _ h1
    rw [Literal.negate_negate] at this
    exact this h2
  have he1' : pair.1.negate ∈ sop.precondition → pair.1.positive ∈ cleanInit init := by
    intro hp
    have := henP hp
    rw [hmP'] at this
    by_contra hcl
    rw [if_neg hcl] at this
    omega
  have he2' : pair.1 ∈ sop.precondition → ¬pair.1.positive ∈ cleanInit init := by
    intro hp
    have := henN hp
    rw [hmNP] at this
    by_contra hcl
    rw [if_pos hcl] at this
    omega
  -- assemble
  rw [hposneg, exactlyOne, fire, fire]
  have e1 : (if t.origins.any (fun p => p.name == strLit pair.1.negate) then 1 else 0) =
      (if pair.1.negate ∈ sop.precondition then 1 else 0) :=
    if_congr ((any_name_iff _ _).trans hoP) rfl rfl
  have e2 : (if t.destinations.any (fun p => p.name == strLit pair.1.negate)
        then 1 else 0) =
      (if (pair.1.negate ∈ effLits sop ∨
        (pair.1.negate ∈ sop.precondition ∧ ¬pair.1 ∈ effLits sop)) then 1 else 0) :=
    if_congr ((any_name_iff _ _).trans hdP) rfl rfl
  have e3 : (if t.origins.any (fun p => p.name == strLit pair.2) then 1 else 0) =
      (if pair.1 ∈ sop.precondition then 1 else 0) :=
    if_congr ((any_name_iff _ _).trans hoN) rfl rfl
  have e4 : (if t.destinations.any (fun p => p.name == strLit pair.2) then 1 else 0) =
      (if (pair.1 ∈ effLits sop ∨
        (pair.1 ∈ sop.precondition ∧ ¬pair.1.negate ∈ effLits sop)) then 1 else 0) :=
    if_congr ((any_name_iff _ _).trans hdN) rfl rfl
  rw [e1, e2, e3, e4, hmP', hmNP]
  exact fire_table (pair.1.negate ∈ effLits sop) (pair.1 ∈ effLits sop)
    (pair.1.negate ∈ sop.precondition) (pair.1 ∈ sop.precondition)
    (pair.1.positive ∈ cleanInit init) hs1' hs2' hc' he1' he2'

theorem short_pred_clean {p : String} (h : p.length < 4) : ∀ s, p ≠ "not_" ++ s := by
  intro s he
  have hlen := congrArg String.length he
  rw [String.length_append] at hlen
  have h4 : ("not_" : String).length = 4 := rfl
  rw [h4] at hlen
  omega

theorem claim_C6_witness :
    exactlyOne (markingOf hick_net)
      (strLit (Literal.mk true "a" []).positive)
      (strLit (Literal.mk false "not_a" [])) ∧
    ∀ t ∈ hick_net.transitions, enabled (markingOf hick_net) t →
      exactlyOne (fire (markingOf hick_net) t)
        (strLit (Literal.mk true "a" []).positive)
        (strLit (Literal.mk false "not_a" [])) := by
  have hlen : ∀ l ∈ ([hickmott_op].flatMap opLits), l.predicate.length < 4 := by decide
  exact claim_C6 [hickmott_op] hick_atoms hick_init hick_net (by decide)
    (Literal.mk true "a" [], Literal.mk false "not_a" []) (by decide) (by decide)
    (by decide) (by decide) (fun l hl s => short_pred_clean (hlen l hl) s) (by decide)

end PetriTranslate
